import Mathlib

/-!
Verification development for the mapbuffer serialization format
(seung-lab/mapbuffer).  The definitions below are a shallow embedding of
`mapbuffer/mapbuffer.py` and `mapbuffer/lib.py`: byte buffers are lists of
naturals (each intended `< 256`), Python `int.to_bytes`/`int.from_bytes`
become explicit little-endian codecs, Python exceptions become an `Except`
error type, and the two C-accelerated entry points that are not part of the
Python sources (`mapbufferaccel.eytzinger_sort_indices`,
`mapbufferaccel.eytzinger_binary_search`), together with the external
`crc32c` and `compression` collaborators, are modelled from the spec
(sections 4.1-4.3) as marked on each definition.

Recursive procedures of the source that are not structurally recursive
(the Eytzinger in-order walk and the search loop) are embedded with an
explicit fuel argument so that every definition is executable by the
kernel; wrappers supply fuel that provably exceeds the recursion depth,
and stability lemmas show the result does not depend on the fuel.
-/

namespace MapBuf

/-- Little-endian byte encoding of `n` into exactly `len` bytes, the
embedding of Python `n.to_bytes(len, byteorder="little")`. -/
def toBytesLE : Nat → Nat → List Nat
  | _, 0 => []
  | n, len+1 => (n % 256) :: toBytesLE (n / 256) len

/-- Little-endian byte decoding, the embedding of Python
`int.from_bytes(bs, byteorder="little")` (works on any length, including
the empty slice, exactly as in Python). -/
def fromBytesLE : List Nat → Nat
  | [] => 0
  | b :: rest => b + 256 * fromBytesLE rest

/-- Reflected CRC-32C state update for a single message bit, using the
reversed Castagnoli polynomial `0x82F63B78`. Modelled from the spec:
the external `crc32c` package (spec section 4.2, CRC-32C, Castagnoli
polynomial, applied after compression, 4-byte little-endian encoding). -/
def crcStep (s : Nat) (b : Bool) : Nat :=
  (s >>> 1) ^^^ (if (s.testBit 0).xor b then 0x82F63B78 else 0)

/-- Run the CRC-32C state machine over a list of message bits. -/
def crcRun (s : Nat) (bits : List Bool) : Nat :=
  bits.foldl crcStep s

/-- The eight bits of one message byte, least significant first (the
reflected bit order of CRC-32C). -/
def bitsOfByte (x : Nat) : List Bool :=
  [x.testBit 0, x.testBit 1, x.testBit 2, x.testBit 3,
   x.testBit 4, x.testBit 5, x.testBit 6, x.testBit 7]

/-- CRC-32C of a byte string: initial state `0xFFFFFFFF`, final xor
`0xFFFFFFFF`.  Modelled from the spec: the external `crc32c.crc32c`
function (spec section 4.2).  This definition reproduces the standard
check value `crc32c("123456789") = 0xE3069283`. -/
def crc32c (m : List Nat) : Nat :=
  (crcRun 0xFFFFFFFF (m.map bitsOfByte).flatten) ^^^ 0xFFFFFFFF

/-- Fuel-indexed embedding of `lib.py::eytzinger_sort` (lines 107-121):

    def eytzinger_sort(inpt, output, i = 0, k = 1):
      if k <= len(inpt):
        i = eytzinger_sort(inpt, output, i, 2 * k)
        output[k - 1] = inpt[i]
        i += 1
        i = eytzinger_sort(inpt, output, i, 2 * k + 1)
      return i

The output buffer is a list, written with `List.set`; the read `inpt[i]`
is embedded as `List.getD` with an explicit default `d` (the source never
reads out of range when called as `eytzinger_sort(inpt, output)` on
buffers of equal length, which is proved below). -/
def eySortF (d : Nat) (inpt : List Nat) : Nat → List Nat → Nat → Nat → Nat × List Nat
  | 0, out, i, _ => (i, out)
  | fuel+1, out, i, k =>
    if k ≤ inpt.length then
      let r1 := eySortF d inpt fuel out i (2*k)
      let out2 := r1.2.set (k-1) (inpt.getD r1.1 d)
      eySortF d inpt fuel out2 (r1.1 + 1) (2*k+1)
    else (i, out)

/-- The embedding of `lib.py::eytzinger_sort`, with fuel large enough for
every call with `k ≥ 1` (the recursion measure `inpt.length + 1 - k`
strictly decreases). -/
def eytzinger_sort (d : Nat) (inpt output : List Nat) (i k : Nat) : Nat × List Nat :=
  eySortF d inpt (inpt.length + 2) output i k

/-- Modelled from the spec: `mapbufferaccel.eytzinger_sort_indices(N)`
(called at `mapbuffer.py` line 242; the accelerator is not part of the
Python sources).  Per spec section 4.3 it produces the permutation taking
sorted position `i` to its Eytzinger slot, i.e. the in-order heap walk of
`lib.py::eytzinger_sort` applied to the identity sequence `0..N-1`. -/
def eytzinger_sort_indices (N : Nat) : List Nat :=
  (eytzinger_sort 0 (List.range N) (List.replicate N 0) 0 1).2

/-- In-order walk of the implicit 1-indexed size-`N` heap rooted at `k`
(fuel-indexed).  This is the specification device used to reason about
both the Eytzinger permutation and the Eytzinger search. -/
def inoF (N : Nat) : Nat → Nat → List Nat
  | 0, _ => []
  | fuel+1, k => if k ≤ N then inoF N fuel (2*k) ++ k :: inoF N fuel (2*k+1) else []

/-- In-order walk of the size-`N` heap rooted at `k` (`k ≥ 1`). -/
def ino (N k : Nat) : List Nat :=
  inoF N (N + 2) k

/-- Node `j` lies in the subtree rooted at `k` of the infinite 1-indexed
heap: some ancestor chain of right-shifts takes `j` to `k`. -/
def inSub (k j : Nat) : Prop := ∃ dp, j >>> dp = k

/-- Fuel-indexed count of trailing one bits of `k`. -/
def trailingOnesF : Nat → Nat → Nat
  | 0, _ => 0
  | fuel+1, k => if k % 2 = 1 then trailingOnesF fuel (k / 2) + 1 else 0

/-- Number of trailing one bits of `k` (so `ffs(~k) = trailingOnes k + 1`). -/
def trailingOnes (k : Nat) : Nat := trailingOnesF (k+1) k

/-- The post-loop index extraction of the Eytzinger search:
`k >>= ffs(~k)` in spec section 4.3, clearing the trailing run of one
bits and the zero above them. -/
def extractSlot (m : Nat) : Nat := m >>> (trailingOnes m + 1)

/-- Fuel-indexed embedding of the descent loop of spec section 4.3:
while `k ≤ N`: `k = 2k + (E[k-1].key < T ? 1 : 0)`. -/
def searchLoopF (E : List (Nat × Nat)) (T : Nat) : Nat → Nat → Nat
  | 0, k => k
  | fuel+1, k =>
    if k ≤ E.length then
      searchLoopF E T fuel (2*k + (if (E.getD (k-1) (0,0)).1 < T then 1 else 0))
    else k

/-- Modelled from the spec: `mapbufferaccel.eytzinger_binary_search`
(called at `mapbuffer.py` line 197; the accelerator is not part of the
Python sources).  Spec section 4.3: descend with
`k = 2k + (E[k-1].key < T)` while `k ≤ N`; on exit `k >>= ffs(~k)`,
`k -= 1`; if `k` is in `[0, N)` and `E[k].key == T` return `k`, else
return not-found (rendered as `-1`). -/
def eytzinger_binary_search (T : Nat) (E : List (Nat × Nat)) : Int :=
  let N := E.length
  let kf := searchLoopF E T (N + 2) 1
  let j := extractSlot kf
  if 1 ≤ j ∧ j ≤ N ∧ (E.getD (j-1) (0,0)).1 = T then (j : Int) - 1 else -1

/-- The magic bytes `b"mapbufr"` (`mapbuffer.py` line 14). -/
def MAGIC : List Nat := [109, 97, 112, 98, 117, 102, 114]

/-- The ASCII bytes of the 4-byte codec tag `"none"` written by the
writer when no compression is chosen (`nvl(compress, "none").zfill(4)`,
`mapbuffer.py` lines 248-249). -/
def noneTag : List Nat := [110, 111, 110, 101]

/-- The 4-byte little-endian CRC-32C trailer of a byte string. -/
def crcBytes (v : List Nat) : List Nat := toBytesLE (crc32c v) 4

/-- One value blob of a format-version-1 buffer: the (identity-)
compressed value followed by its CRC-32C trailer (`mapbuffer.py`
lines 267-272, with the `none` codec, whose `compress` is the identity
per spec section 4.1). -/
def blobOf (v : List Nat) : List Nat := v ++ crcBytes v

/-- The value stored for key `k` in the input mapping (`data[label]`;
the mapping is embedded as an association list with pairwise-distinct
keys). -/
def valueOf (data : List (Nat × List Nat)) (k : Nat) : List Nat :=
  (data.lookup k).getD []

/-- The ascending-sorted key array `labels` of `dict2buf`
(`mapbuffer.py` lines 236-240). -/
def sortedLabels (data : List (Nat × List Nat)) : List Nat :=
  List.insertionSort (· ≤ ·) (data.map Prod.fst)

/-- The keys permuted into Eytzinger order:
`labels = labels[eytzinger_sort_indices(len(data))]`
(`mapbuffer.py` lines 242-243). -/
def eyLabels (data : List (Nat × List Nat)) : List Nat :=
  (eytzinger_sort_indices data.length).map (fun j => (sortedLabels data).getD j 0)

/-- The offset-computing loop of `dict2buf` (`mapbuffer.py` lines
277-279): the first offset is the start of the data region and each
following offset adds the length of the previous Eytzinger slot's blob. -/
def offsetsAux : Nat → List Nat → List Nat
  | _, [] => []
  | s, l :: rest => s :: offsetsAux (s + l) rest

/-- Blob lengths in Eytzinger order. -/
def blobLens (data : List (Nat × List Nat)) : List Nat :=
  (eyLabels data).map (fun k => (blobOf (valueOf data k)).length)

/-- The per-slot absolute offsets of the index, in Eytzinger slot order
(`index[1] = HEADER_LENGTH + index_length * 8` and the loop of lines
278-279). -/
def offsetsOf (data : List (Nat × List Nat)) : List Nat :=
  offsetsAux (16 + 16 * data.length) (blobLens data)

/-- The 16-byte header emitted by `dict2buf` (`mapbuffer.py` lines
251-255): magic, format version 1, codec tag `"none"`, `N` as LE u32. -/
def headerOf16 (data : List (Nat × List Nat)) : List Nat :=
  MAGIC ++ [1] ++ noneTag ++ toBytesLE data.length 4

/-- One 16-byte index slot: key and offset as LE u64. -/
def pairBytes (p : Nat × Nat) : List Nat := toBytesLE p.1 8 ++ toBytesLE p.2 8

/-- The embedding of `MapBuffer.dict2buf` (`mapbuffer.py` lines 234-283)
with the `none` codec and no `tobytesfn`: sort the keys, permute them
into Eytzinger order, append a CRC-32C trailer to every value, lay the
interleaved `(key, offset)` u64 pairs after the header and concatenate
the blobs in Eytzinger order; an empty mapping yields the bare header. -/
def dict2buf (data : List (Nat × List Nat)) : List Nat :=
  if data.length = 0 then headerOf16 data
  else
    headerOf16 data
      ++ (((eyLabels data).zip (offsetsOf data)).map pairBytes).flatten
      ++ ((eyLabels data).map (fun k => blobOf (valueOf data k))).flatten

/-- Number of keys, read from header bytes 12-15
(`MapBuffer.__len__`, `mapbuffer.py` lines 66-68). -/
def numEntries (buf : List Nat) : Nat :=
  fromBytesLE ((buf.take 16).drop 12)

/-- Format version, header byte 7 (`MapBuffer.format_version`,
`mapbuffer.py` lines 80-82; reading the byte of a too-short buffer is
embedded with default 0). -/
def format_version (buf : List Nat) : Nat := buf.getD 7 0

/-- Python slice `buf[a:b]` on byte strings (clamping, empty when
`b ≤ a`). -/
def pySlice (buf : List Nat) (a b : Nat) : List Nat := (buf.take b).drop a

/-- The parsed `N × 2` index of `(key, offset)` LE u64 pairs
(`MapBuffer.index`, `mapbuffer.py` lines 102-111, the zero-copy
`np.frombuffer` reinterpretation of `buffer[16 : 16 + 16N]`). -/
def indexPairs (buf : List Nat) : List (Nat × Nat) :=
  (List.range (numEntries buf)).map (fun i =>
    (fromBytesLE (pySlice buf (16 + 16*i) (16 + 16*i + 8)),
     fromBytesLE (pySlice buf (16 + 16*i + 8) (16 + 16*i + 16))))

/-- The Python exceptions raised by the reader, one constructor per
distinguishable kind (spec section 7).  `lengthMismatch` is the
`ValueError` raised by `setindex` on a size mismatch; `reshapeError` is
the `ValueError` raised by `np.frombuffer`/`reshape` inside `index()`
when the buffer is shorter than `16 + 16N`; `nameError` is the
`NameError` raised by `validate`'s data-length branch, whose error
message references the undefined name `mapbuf` (`mapbuffer.py`
line 315). -/
inductive Err where
  | keyError
  | validationError
  | lengthMismatch
  | reshapeError
  | nameError
deriving DecidableEq

instance {ε α : Type} [DecidableEq ε] [DecidableEq α] : DecidableEq (Except ε α) := fun x y =>
  match x, y with
  | .ok a, .ok b =>
    if h : a = b then isTrue (by rw [h]) else isFalse (fun hh => by cases hh; exact h rfl)
  | .ok _, .error _ => isFalse (fun h => by cases h)
  | .error _, .ok _ => isFalse (fun h => by cases h)
  | .error e, .error f =>
    if h : e = f then isTrue (by rw [h]) else isFalse (fun hh => by cases hh; exact h rfl)

/-- The embedding of `MapBuffer.getindex` (`mapbuffer.py` lines
129-156) with the `none` codec and no `frombytesfn`: slice the blob
using the next slot's offset (or the end of the buffer for the last
slot); for format version 1 split off the 4-byte trailer and, when
`check_crc` is set, compare it against the recomputed CRC-32C. -/
def getindex (buf : List Nat) (check_crc : Bool) (i : Nat) : Except Err (List Nat) :=
  let index := indexPairs buf
  let N := index.length
  let offset := (index.getD i (0,0)).2
  let value := if i < N - 1 then pySlice buf offset (index.getD (i+1) (0,0)).2
               else buf.drop offset
  if format_version buf = 1 then
    let stored := fromBytesLE (value.drop (value.length - 4))
    let body := value.take (value.length - 4)
    if check_crc ∧ crc32c body ≠ stored then .error .validationError
    else .ok body
  else .ok value

/-- The embedding of `MapBuffer.find_index_position` (`mapbuffer.py`
lines 191-201): empty maps have no positions; otherwise run the
Eytzinger search and keep its result only when it lies in `[0, N)`. -/
def find_index_position (buf : List Nat) (label : Nat) : Option Nat :=
  let index := indexPairs buf
  let N := index.length
  if N = 0 then none
  else
    let k := eytzinger_binary_search label index
    if 0 ≤ k ∧ k < (N : Int) then some k.toNat else none

/-- The embedding of `MapBuffer.__contains__` (`mapbuffer.py` lines
216-218). -/
def mb_contains (buf : List Nat) (label : Nat) : Bool :=
  (find_index_position buf label).isSome

/-- The embedding of `MapBuffer.__getitem__` (`mapbuffer.py` lines
220-225): raise `KeyError` when the label is not found. -/
def getitem (buf : List Nat) (check_crc : Bool) (label : Nat) : Except Err (List Nat) :=
  match find_index_position buf label with
  | some pos => getindex buf check_crc pos
  | none => .error .keyError

/-- The embedding of `MapBuffer.get` (`mapbuffer.py` lines 203-214).
`args` embeds the positional `*args` (a present head is `args[0]`) and
`kwargsDefault` embeds whether a `default=` keyword argument was passed.
When the label is absent and no positional default exists, the source
evaluates `kwargs.get("default")`, which returns Python `None` when the
keyword is absent instead of raising; the `raise KeyError` at line 212
is therefore unreachable, which this embedding reproduces with
`kwargsDefault.getD none`.  A returned `Option` is a Python value
(`some v` a byte string, `none` the Python `None` object). -/
def mb_get (buf : List Nat) (check_crc : Bool) (label : Nat)
    (args : List (Option (List Nat))) (kwargsDefault : Option (Option (List Nat))) :
    Except Err (Option (List Nat)) :=
  match find_index_position buf label with
  | some pos => (getindex buf check_crc pos).map some
  | none =>
    match args with
    | a :: _ => .ok a
    | [] => .ok (kwargsDefault.getD none)

/-- The existing encoded length of slot `i` seen by `setindex`
(`mapbuffer.py` lines 161-167): the distance to the next slot's offset,
or to the end of the buffer for the last slot. -/
def setindexExisting (buf : List Nat) (i : Nat) : Nat :=
  let index := indexPairs buf
  let N := index.length
  let offset := (index.getD i (0,0)).2
  if i < N - 1 then (index.getD (i+1) (0,0)).2 - offset
  else buf.length - offset

/-- The embedding of `MapBuffer.setindex` (`mapbuffer.py` lines
158-189) with the `none` codec and no `tobytesfn`.  The length check
(line 179) precedes the single slice assignment, so a raised
`lengthMismatch` leaves the buffer untouched; the slice assignment
`buffer[offset:next_offset] = data` is Python bytearray splicing (the
buffer is resized when the lengths differ).  Note that the source
appends the CRC-32C trailer only when `format_version != 1`
(lines 185-189). -/
def setindex (buf : List Nat) (i : Nat) (data : List Nat) : Except Err (List Nat) :=
  let index := indexPairs buf
  let N := index.length
  let offset := (index.getD i (0,0)).2
  let next_offset := if i < N - 1 then (index.getD (i+1) (0,0)).2 else buf.length
  let check_length := data.length + (if format_version buf = 1 then 4 else 0)
  if check_length ≠ setindexExisting buf i then .error .lengthMismatch
  else if format_version buf = 1 then
    .ok (buf.take offset ++ data ++ buf.drop next_offset)
  else
    .ok (buf.take offset ++ (data ++ crcBytes data) ++ buf.drop next_offset)

/-- ASCII lowercasing of one byte. -/
def byteLower (b : Nat) : Nat := if 65 ≤ b ∧ b ≤ 90 then b + 32 else b

/-- Modelled from the spec: `compression.normalize_encoding` (the
`compression` module is not among the Python sources; spec section 4.1:
the persisted 4-byte tag is right-justified with ASCII `'0'` padding and
decoded by stripping the padding and matching case-insensitively;
`"none"` denotes no compression, i.e. Python `None`). -/
def normalize_encoding (tag : List Nat) : Option (List Nat) :=
  let s := (tag.dropWhile (fun b => b = 48)).map byteLower
  if s = noneTag then none else some s

/-- Modelled from the spec: the known-codec set
`compression.COMPRESSION_TYPES` (spec sections 4.1 and 2: no
compression plus gzip, br, zstd, lzma). -/
def COMPRESSION_TYPES : List (Option (List Nat)) :=
  [none, some [103, 122, 105, 112], some [98, 114],
   some [122, 115, 116, 100], some [108, 122, 109, 97]]

/-- Signed 64-bit reinterpretation of an unsigned value
(`offsets.astype(np.int64)` in `validate`). -/
def toInt64 (n : Nat) : Int :=
  if n < 2^63 then (n : Int) else (n : Int) - 2^64

/-- Wrapping of an integer into the signed 64-bit range (numpy int64
arithmetic). -/
def wrap64 (z : Int) : Int := (z + 2^63) % 2^64 - 2^63

/-- The index offsets as int64 (`offsets = index[:,1].astype(np.int64)`,
`mapbuffer.py` line 308). -/
def validateOffs (buf : List Nat) : List Int :=
  (indexPairs buf).map (fun p => toInt64 p.2)

/-- The consecutive index-order offset differences as wrapping int64
(`lengths = offsets[1:] - offsets[0:-1]`, line 309). -/
def validateLens (buf : List Nat) : List Int :=
  List.zipWith (fun a b => wrap64 (b - a)) (validateOffs buf) (validateOffs buf).tail

/-- The predicted data length
(`length = lengths.sum() + (len(self.buffer) - offsets[-1])`, line 313)
in wrapping int64 arithmetic. -/
def validateTotal (buf : List Nat) : Int :=
  wrap64 (wrap64 (validateLens buf).sum
    + wrap64 ((buf.length : Int) - (validateOffs buf).getD (numEntries buf - 1) 0))

/-- The embedding of `MapBuffer.validate` (`mapbuffer.py` lines
291-325).  `index()` is evaluated first: when `N > 0` and the buffer is
shorter than `16 + 16N`, `np.frombuffer`/`reshape` raise a `ValueError`
(not a `ValidationError`); after a successful reshape the index always
has `N` rows, so the first `len(index) != len(self)` check never fires.
Then: magic bytes, format version in `{0, 1}`, known codec tag; for a
non-empty map the consecutive index-order offset differences (as
wrapping int64) must be non-negative and must account for the whole
data region — the failure branch of that last check raises `NameError`
because its message references the undefined name `mapbuf` (line 315) —
and an empty map's buffer must be exactly the 16-byte header.  The keys
themselves are never inspected (the key-ordering check is commented out
with a TODO, lines 317-321), and no CRC is verified. -/
def validate (buf : List Nat) : Except Err Bool :=
  let N := numEntries buf
  if 0 < N ∧ buf.length < 16 + 16 * N then .error .reshapeError
  else if ¬ (buf.take 7 = MAGIC) then .error .validationError
  else if ¬ (format_version buf = 0 ∨ format_version buf = 1) then .error .validationError
  else if ¬ (normalize_encoding (pySlice buf 8 12) ∈ COMPRESSION_TYPES) then
    .error .validationError
  else if 0 < N then
    if (validateLens buf).any (fun l => decide (l < 0)) then .error .validationError
    else if validateTotal buf ≠ (buf.length : Int) - 16 - 16 * N then .error .nameError
    else .ok true
  else if ¬ (buf.length = 16) then .error .validationError
  else .ok true

/-- The spec-side section-3 invariant that the `N` stored keys are
pairwise distinct, used to compare `validate` against the spec's claimed
completeness. -/
def spec3DistinctKeys (buf : List Nat) : Prop :=
  ((indexPairs buf).map Prod.fst).Nodup

/-- The index offsets rearranged into ascending original-key order, the
order in which spec section 3 claims they increase. -/
def keySortedOffsets (buf : List Nat) : List Nat :=
  (List.insertionSort (fun p q : Nat × Nat => p.1 ≤ q.1) (indexPairs buf)).map Prod.snd

/-! ## Lemmas: little-endian byte codec -/

theorem length_toBytesLE (n len : Nat) : (toBytesLE n len).length = len := by
  induction len generalizing n with
  | zero => rfl
  | succ m ih => simp [toBytesLE, ih]

theorem toBytesLE_lt (n len : Nat) : ∀ b ∈ toBytesLE n len, b < 256 := by
  induction len generalizing n with
  | zero => simp [toBytesLE]
  | succ m ih =>
    intro b hb
    simp only [toBytesLE, List.mem_cons] at hb
    rcases hb with h | h
    · exact h ▸ Nat.mod_lt _ (by norm_num)
    · exact ih _ b h

theorem fromBytesLE_toBytesLE (n len : Nat) (h : n < 256 ^ len) :
    fromBytesLE (toBytesLE n len) = n := by
  induction len generalizing n with
  | zero =>
    interval_cases n
    rfl
  | succ m ih =>
    have hdiv : n / 256 < 256 ^ m := by
      rw [Nat.div_lt_iff_lt_mul (by norm_num)]
      calc n < 256 ^ (m + 1) := h
        _ = 256 ^ m * 256 := by ring
    simp [toBytesLE, fromBytesLE, ih _ hdiv, Nat.mod_add_div]

theorem fromBytesLE_lt (l : List Nat) (h : ∀ b ∈ l, b < 256) :
    fromBytesLE l < 256 ^ l.length := by
  induction l with
  | nil => simp [fromBytesLE]
  | cons b rest ih =>
    have hb : b < 256 := h b (List.mem_cons_self _ _)
    have hr := ih (fun c hc => h c (List.mem_cons_of_mem _ hc))
    simp only [fromBytesLE, List.length_cons]
    calc b + 256 * fromBytesLE rest < 256 + 256 * fromBytesLE rest := by omega
      _ ≤ 256 + 256 * (256 ^ rest.length - 1) := by
          have : fromBytesLE rest ≤ 256 ^ rest.length - 1 := by omega
          omega
      _ ≤ 256 ^ (rest.length + 1) := by
          have : 1 ≤ 256 ^ rest.length := Nat.one_le_pow _ _ (by norm_num)
          rw [pow_succ]
          omega

theorem fromBytesLE_inj (l1 l2 : List Nat) (h1 : ∀ b ∈ l1, b < 256) (h2 : ∀ b ∈ l2, b < 256)
    (hlen : l1.length = l2.length) (hne : l1 ≠ l2) :
    fromBytesLE l1 ≠ fromBytesLE l2 := by
  induction l1 generalizing l2 with
  | nil => cases l2 with
    | nil => exact absurd rfl hne
    | cons c cs => simp at hlen
  | cons b bs ih =>
    cases l2 with
    | nil => simp at hlen
    | cons c cs =>
      have hb : b < 256 := h1 b (List.mem_cons_self _ _)
      have hc : c < 256 := h2 c (List.mem_cons_self _ _)
      simp only [fromBytesLE]
      by_cases hbc : b = c
      · subst hbc
        have htail : bs ≠ cs := fun hh => hne (by rw [hh])
        have := ih cs (fun x hx => h1 x (List.mem_cons_of_mem _ hx))
          (fun x hx => h2 x (List.mem_cons_of_mem _ hx)) (by simpa using hlen) htail
        omega
      · intro heq
        have : (b + 256 * fromBytesLE bs) % 256 = (c + 256 * fromBytesLE cs) % 256 := by rw [heq]
        simp [Nat.add_mul_mod_self_left, Nat.mod_eq_of_lt hb, Nat.mod_eq_of_lt hc] at this
        exact hbc this

/-! ## Lemmas: CRC-32C -/

theorem shiftRight_xor_distrib (a b n : Nat) : (a ^^^ b) >>> n = (a >>> n) ^^^ (b >>> n) := by
  apply Nat.eq_of_testBit_eq
  intro i
  simp [Nat.testBit_shiftRight, Nat.testBit_xor]

theorem crcStep_lt (s : Nat) (b : Bool) (hs : s < 2 ^ 32) : crcStep s b < 2 ^ 32 := by
  unfold crcStep
  apply Nat.xor_lt_two_pow
  · rw [Nat.shiftRight_one]
    exact lt_of_le_of_lt (Nat.div_le_self s 2) hs
  · split <;> norm_num

theorem crcRun_lt (bits : List Bool) (s : Nat) (hs : s < 2 ^ 32) : crcRun s bits < 2 ^ 32 := by
  induction bits generalizing s with
  | nil => exact hs
  | cons b rest ih => exact ih _ (crcStep_lt s b hs)

theorem crc32c_lt (m : List Nat) : crc32c m < 2 ^ 32 := by
  unfold crc32c
  exact Nat.xor_lt_two_pow (crcRun_lt _ _ (by norm_num)) (by norm_num)

theorem condPoly_xor (p : Nat) (a b : Bool) :
    (if a.xor b then p else 0) = (if a then p else 0) ^^^ (if b then p else 0) := by
  cases a <;> cases b <;> simp

theorem crcStep_linear (s t : Nat) (b c : Bool) :
    crcStep (s ^^^ t) (b.xor c) = crcStep s b ^^^ crcStep t c := by
  unfold crcStep
  rw [shiftRight_xor_distrib]
  have hbit : (s ^^^ t).testBit 0 = (s.testBit 0).xor (t.testBit 0) := Nat.testBit_xor s t 0
  rw [hbit]
  have hx : ((s.testBit 0).xor (t.testBit 0)).xor (b.xor c)
      = ((s.testBit 0).xor b).xor ((t.testBit 0).xor c) := by
    cases s.testBit 0 <;> cases t.testBit 0 <;> cases b <;> cases c <;> rfl
  rw [hx, condPoly_xor]
  generalize s >>> 1 = A
  generalize t >>> 1 = B
  generalize (if (s.testBit 0).xor b then (0x82F63B78 : Nat) else 0) = P
  generalize (if (t.testBit 0).xor c then (0x82F63B78 : Nat) else 0) = Q
  rw [Nat.xor_assoc, Nat.xor_assoc]
  congr 1
  rw [Nat.xor_comm P (B ^^^ Q), Nat.xor_assoc, Nat.xor_comm Q P]

theorem crcRun_linear (bs cs : List Bool) (s t : Nat) (hlen : bs.length = cs.length) :
    crcRun (s ^^^ t) (List.zipWith Bool.xor bs cs) = crcRun s bs ^^^ crcRun t cs := by
  induction bs generalizing cs s t with
  | nil =>
    cases cs with
    | nil => rfl
    | cons c cs' => simp at hlen
  | cons b bs' ih =>
    cases cs with
    | nil => simp at hlen
    | cons c cs' =>
      simp only [List.zipWith_cons_cons]
      show crcRun (crcStep (s ^^^ t) (Bool.xor b c)) (List.zipWith Bool.xor bs' cs')
          = crcRun (crcStep s b) bs' ^^^ crcRun (crcStep t c) cs'
      rw [crcStep_linear]
      exact ih cs' _ _ (by simpa using hlen)

theorem crcStep_zero_false : crcStep 0 false = 0 := by decide

theorem crcRun_zero_replicate (n : Nat) : crcRun 0 (List.replicate n false) = 0 := by
  induction n with
  | zero => rfl
  | succ m ih => simpa [List.replicate_succ, crcRun, crcStep_zero_false] using ih

theorem crcStep_false (s : Nat) :
    crcStep s false = (s >>> 1) ^^^ (if s.testBit 0 then 0x82F63B78 else 0) := by
  unfold crcStep
  rw [Bool.xor_false]

theorem crcStep_false_ne_zero (s : Nat) (hne : s ≠ 0) (hs : s < 2 ^ 32) :
    crcStep s false ≠ 0 := by
  rw [crcStep_false]
  by_cases hbit : s.testBit 0
  · rw [if_pos hbit]
    have hlow : (s >>> 1) < 2 ^ 31 := by
      rw [Nat.shiftRight_one]
      omega
    have h31 : ((s >>> 1) ^^^ 0x82F63B78).testBit 31 = true := by
      rw [Nat.testBit_xor, Nat.testBit_lt_two_pow hlow]
      decide
    intro h
    rw [h] at h31
    simp at h31
  · rw [if_neg hbit, Nat.xor_zero, Nat.shiftRight_one]
    have hmod : s % 2 = 0 := by
      rw [Nat.testBit_zero] at hbit
      simpa using hbit
    omega

theorem crcRun_false_ne_zero (n : Nat) (s : Nat) (hne : s ≠ 0) (hs : s < 2 ^ 32) :
    crcRun s (List.replicate n false) ≠ 0 := by
  induction n generalizing s with
  | zero => exact hne
  | succ m ih =>
    simp only [List.replicate_succ, crcRun, List.foldl_cons]
    exact ih (crcStep s false) (crcStep_false_ne_zero s hne hs) (crcStep_lt s false hs)

set_option maxRecDepth 100000 in
theorem byteRun_ne_zero : ∀ e, e < 256 → e ≠ 0 → crcRun 0 (bitsOfByte e) ≠ 0 := by decide

theorem bitsOfByte_length (x : Nat) : (bitsOfByte x).length = 8 := rfl

theorem zipWith_xor_bitsOfByte (x y : Nat) :
    List.zipWith Bool.xor (bitsOfByte x) (bitsOfByte y) = bitsOfByte (x ^^^ y) := by
  simp only [bitsOfByte, List.zipWith_cons_cons, List.zipWith_nil_right, Nat.testBit_xor]

theorem bitsOfByte_zero : bitsOfByte 0 = List.replicate 8 false := by decide

theorem crcRun_append (s : Nat) (l1 l2 : List Bool) :
    crcRun s (l1 ++ l2) = crcRun (crcRun s l1) l2 :=
  List.foldl_append _ _ _ _

theorem flattenBits_length (l : List Nat) : ((l.map bitsOfByte).flatten).length = 8 * l.length := by
  induction l with
  | nil => rfl
  | cons c cs ih =>
    simp only [List.map_cons, List.flatten_cons, List.length_append, ih,
      bitsOfByte_length, List.length_cons]
    ring

theorem zipWith_xor_flattenBits (l1 l2 : List Nat) (h : l1.length = l2.length) :
    List.zipWith Bool.xor (l1.map bitsOfByte).flatten (l2.map bitsOfByte).flatten
      = ((List.zipWith (fun x y => x ^^^ y) l1 l2).map bitsOfByte).flatten := by
  induction l1 generalizing l2 with
  | nil =>
    cases l2 with
    | nil => rfl
    | cons c cs => simp at h
  | cons c cs ih =>
    cases l2 with
    | nil => simp at h
    | cons d ds =>
      simp only [List.map_cons, List.flatten_cons, List.zipWith_cons_cons]
      rw [List.zipWith_append _ _ _ _ _ (by rw [bitsOfByte_length, bitsOfByte_length])]
      rw [zipWith_xor_bitsOfByte, ih ds (by simpa using h)]

theorem zipWith_xor_self (l : List Nat) :
    List.zipWith (fun x y => x ^^^ y) l l = List.replicate l.length 0 := by
  induction l with
  | nil => rfl
  | cons c cs ih => simp [List.replicate_succ, ih]

theorem flattenBits_replicate_zero (n : Nat) :
    ((List.replicate n 0).map bitsOfByte).flatten = List.replicate (8 * n) false := by
  induction n with
  | zero => rfl
  | succ m ih =>
    rw [List.replicate_succ, List.map_cons, List.flatten_cons, ih, bitsOfByte_zero]
    rw [show 8 * (m + 1) = 8 + 8 * m by ring, List.replicate_add]

theorem crc32c_flip (a b : List Nat) (x y : Nat) (hx : x < 256) (hy : y < 256)
    (hxy : x ≠ y) : crc32c (a ++ x :: b) ≠ crc32c (a ++ y :: b) := by
  intro heq
  unfold crc32c at heq
  have hrun : crcRun 0xFFFFFFFF ((a ++ x :: b).map bitsOfByte).flatten
      = crcRun 0xFFFFFFFF ((a ++ y :: b).map bitsOfByte).flatten := by
    have h1 := congrArg (fun z => z ^^^ 0xFFFFFFFF) heq
    simpa [Nat.xor_cancel_right] using h1
  have hlen : ((a ++ x :: b).map bitsOfByte).flatten.length
      = ((a ++ y :: b).map bitsOfByte).flatten.length := by
    rw [flattenBits_length, flattenBits_length]
    simp
  have hz : crcRun 0 (List.zipWith Bool.xor
      ((a ++ x :: b).map bitsOfByte).flatten ((a ++ y :: b).map bitsOfByte).flatten) = 0 := by
    have := crcRun_linear _ _ 0xFFFFFFFF 0xFFFFFFFF hlen
    rw [Nat.xor_self] at this
    rw [this, hrun, Nat.xor_self]
  rw [zipWith_xor_flattenBits _ _ (by simp)] at hz
  have hsplit : List.zipWith (fun u v => u ^^^ v) (a ++ x :: b) (a ++ y :: b)
      = List.replicate a.length 0 ++ (x ^^^ y) :: List.replicate b.length 0 := by
    rw [List.zipWith_append _ _ _ _ _ rfl, zipWith_xor_self]
    simp only [List.zipWith_cons_cons, zipWith_xor_self, List.cons.injEq]
  rw [hsplit] at hz
  simp only [List.map_append, List.map_cons, List.flatten_append, List.flatten_cons,
    flattenBits_replicate_zero] at hz
  rw [crcRun_append, crcRun_append, crcRun_zero_replicate] at hz
  have he : x ^^^ y ≠ 0 := fun h => hxy (Nat.xor_eq_zero.mp h)
  have helt : x ^^^ y < 256 := by
    have : (256 : Nat) = 2 ^ 8 := by norm_num
    rw [this] at hx hy ⊢
    exact Nat.xor_lt_two_pow hx hy
  have hmid : crcRun 0 (bitsOfByte (x ^^^ y)) ≠ 0 := byteRun_ne_zero _ helt he
  have hmidlt : crcRun 0 (bitsOfByte (x ^^^ y)) < 2 ^ 32 := crcRun_lt _ 0 (by norm_num)
  exact crcRun_false_ne_zero _ _ hmid hmidlt hz

/-! ## Lemmas: small list helpers -/

theorem getD_mem_of_lt {α : Type} {l : List α} {n : Nat} (h : n < l.length) (d : α) :
    l.getD n d ∈ l := by
  rw [List.getD_eq_getElem?_getD, List.getElem?_eq_getElem h]
  exact List.getElem_mem h

theorem getD_map_of_lt {α β : Type} (f : α → β) (l : List α) {n : Nat} (h : n < l.length)
    (d : α) (e : β) : (l.map f).getD n e = f (l.getD n d) := by
  rw [List.getD_eq_getElem?_getD, List.getD_eq_getElem?_getD,
    List.getElem?_eq_getElem h, List.getElem?_eq_getElem (by simpa using h)]
  simp

/-! ## Lemmas: trailing ones and slot extraction -/

theorem trailingOnesF_stable : ∀ f g k : Nat, k < f → k < g →
    trailingOnesF f k = trailingOnesF g k := by
  intro f
  induction f with
  | zero => intro g k h; omega
  | succ f' ih =>
    intro g k hf hg
    cases g with
    | zero => omega
    | succ g' =>
      simp only [trailingOnesF]
      by_cases hodd : k % 2 = 1
      · rw [if_pos hodd, if_pos hodd, ih g' (k/2) (by omega) (by omega)]
      · rw [if_neg hodd, if_neg hodd]

theorem trailingOnesF_succ (f k : Nat) :
    trailingOnesF (f+1) k = if k % 2 = 1 then trailingOnesF f (k / 2) + 1 else 0 := rfl

theorem trailingOnes_two_mul (k : Nat) : trailingOnes (2*k) = 0 := by
  show trailingOnesF (2*k+1) (2*k) = 0
  rw [trailingOnesF_succ, if_neg (by omega : ¬ (2*k) % 2 = 1)]

theorem trailingOnes_two_mul_add_one (k : Nat) :
    trailingOnes (2*k+1) = trailingOnes k + 1 := by
  show trailingOnesF (2*k+1+1) (2*k+1) = trailingOnesF (k+1) k + 1
  rw [trailingOnesF_succ, if_pos (by omega : (2*k+1) % 2 = 1),
    show (2*k+1)/2 = k by omega,
    trailingOnesF_stable (2*k+1) (k+1) k (by omega) (by omega)]

theorem extractSlot_two_mul (k : Nat) : extractSlot (2*k) = k := by
  unfold extractSlot
  rw [trailingOnes_two_mul, Nat.shiftRight_one]
  omega

theorem extractSlot_two_mul_add_one (k : Nat) : extractSlot (2*k+1) = extractSlot k := by
  unfold extractSlot
  rw [trailingOnes_two_mul_add_one]
  rw [show trailingOnes k + 1 + 1 = 1 + (trailingOnes k + 1) by ring, Nat.shiftRight_add]
  rw [Nat.shiftRight_one, show (2*k+1)/2 = k by omega]

theorem extractSlot_one : extractSlot 1 = 0 := by decide

/-! ## Lemmas: heap subtrees and the in-order walk -/

theorem inSub_refl (k : Nat) : inSub k k := ⟨0, rfl⟩

theorem inSub_le {k j : Nat} (h : inSub k j) : k ≤ j := by
  obtain ⟨dp, hd⟩ := h
  rw [Nat.shiftRight_eq_div_pow] at hd
  exact hd ▸ Nat.div_le_self _ _

theorem inSub_step {k j : Nat} (c : Nat) (hc : c ≤ 1) (h : inSub (2*k + c) j) : inSub k j := by
  obtain ⟨dp, hd⟩ := h
  refine ⟨dp + 1, ?_⟩
  rw [Nat.shiftRight_add, hd, Nat.shiftRight_one]
  omega

theorem inSub_split {k j : Nat} :
    inSub k j ↔ j = k ∨ inSub (2*k) j ∨ inSub (2*k+1) j := by
  constructor
  · rintro ⟨dp, hd⟩
    cases dp with
    | zero => exact Or.inl hd
    | succ e =>
      have hsplit : j >>> e = 2*k ∨ j >>> e = 2*k + 1 := by
        have h2 : (j >>> e) >>> 1 = k := by
          rw [← Nat.shiftRight_add]
          exact hd
        rw [Nat.shiftRight_one] at h2
        omega
      rcases hsplit with h | h
      · exact Or.inr (Or.inl ⟨e, h⟩)
      · exact Or.inr (Or.inr ⟨e, h⟩)
  · rintro (h | h | h)
    · exact h ▸ inSub_refl k
    · exact inSub_step 0 (by omega) (by simpa using h)
    · exact inSub_step 1 (by omega) h

theorem inSub_not_both {k j : Nat} (hk : 1 ≤ k) :
    ¬ (inSub (2*k) j ∧ inSub (2*k+1) j) := by
  rintro ⟨⟨a, ha⟩, ⟨b, hb⟩⟩
  rcases Nat.lt_trichotomy a b with h | h | h
  · have : j >>> b = (j >>> a) >>> (b - a) := by
      rw [← Nat.shiftRight_add]
      congr 1
      omega
    rw [ha] at this
    have hle : (2*k) >>> (b - a) ≤ (2*k) >>> 1 := by
      rw [Nat.shiftRight_eq_div_pow, Nat.shiftRight_eq_div_pow]
      exact Nat.div_le_div_left (Nat.pow_le_pow_right (by norm_num) (by omega)) (by norm_num)
    rw [Nat.shiftRight_one] at hle
    omega
  · rw [h] at ha
    omega
  · have : j >>> a = (j >>> b) >>> (a - b) := by
      rw [← Nat.shiftRight_add]
      congr 1
      omega
    rw [hb] at this
    have hle : (2*k+1) >>> (a - b) ≤ (2*k+1) >>> 1 := by
      rw [Nat.shiftRight_eq_div_pow, Nat.shiftRight_eq_div_pow]
      exact Nat.div_le_div_left (Nat.pow_le_pow_right (by norm_num) (by omega)) (by norm_num)
    rw [Nat.shiftRight_one, show (2*k+1)/2 = k by omega] at hle
    omega

theorem inSub_not_self_left {k : Nat} (hk : 1 ≤ k) : ¬ inSub (2*k) k := by
  intro h
  have := inSub_le h
  omega

theorem inSub_not_self_right {k : Nat} (hk : 1 ≤ k) : ¬ inSub (2*k+1) k := by
  intro h
  have := inSub_le h
  omega

theorem inSub_one {j : Nat} (hj : 1 ≤ j) : inSub 1 j := by
  refine ⟨Nat.log2 j, ?_⟩
  rw [Nat.shiftRight_eq_div_pow]
  have h1 : 2 ^ Nat.log2 j ≤ j := Nat.log2_self_le (by omega)
  have h2 : j < 2 ^ (Nat.log2 j + 1) := Nat.lt_log2_self
  rw [pow_succ] at h2
  have hpow : 0 < 2 ^ Nat.log2 j := Nat.pos_pow_of_pos _ (by norm_num)
  have hge : 1 ≤ j / 2 ^ Nat.log2 j := (Nat.le_div_iff_mul_le hpow).mpr (by omega)
  have hlt : j / 2 ^ Nat.log2 j < 2 := (Nat.div_lt_iff_lt_mul hpow).mpr (by omega)
  omega

theorem inoF_stable (N : Nat) : ∀ f g k : Nat, 1 ≤ k → N + 1 - k < f → N + 1 - k < g →
    inoF N f k = inoF N g k := by
  intro f
  induction f with
  | zero => intro g k _ h; omega
  | succ f' ih =>
    intro g k hk hf hg
    cases g with
    | zero => omega
    | succ g' =>
      simp only [inoF]
      by_cases hkN : k ≤ N
      · rw [if_pos hkN, if_pos hkN,
          ih g' (2*k) (by omega) (by omega) (by omega),
          ih g' (2*k+1) (by omega) (by omega) (by omega)]
      · rw [if_neg hkN, if_neg hkN]

theorem ino_of_gt {N k : Nat} (h : N < k) : ino N k = [] := by
  unfold ino
  cases hf : N + 2 with
  | zero => omega
  | succ m => simp [inoF, Nat.not_le.mpr h]

theorem ino_unfold {N k : Nat} (hk : 1 ≤ k) (h : k ≤ N) :
    ino N k = ino N (2*k) ++ k :: ino N (2*k+1) := by
  show inoF N (N+2) k = _
  cases hf : N + 2 with
  | zero => omega
  | succ m =>
    simp only [inoF, if_pos h]
    unfold ino
    rw [inoF_stable N m (N+2) (2*k) (by omega) (by omega) (by omega),
      inoF_stable N m (N+2) (2*k+1) (by omega) (by omega) (by omega)]

theorem inoF_mem (N : Nat) : ∀ f k j : Nat, 1 ≤ k → N + 1 - k < f →
    (j ∈ inoF N f k ↔ j ≤ N ∧ inSub k j) := by
  intro f
  induction f with
  | zero => intro k j _ h; omega
  | succ f' ih =>
    intro k j hk hf
    simp only [inoF]
    by_cases hkN : k ≤ N
    · rw [if_pos hkN]
      simp only [List.mem_append, List.mem_cons]
      rw [ih (2*k) j (by omega) (by omega), ih (2*k+1) j (by omega) (by omega),
        inSub_split (k := k) (j := j)]
      constructor
      · rintro (h1 | h1 | h1)
        · exact ⟨h1.1, Or.inr (Or.inl h1.2)⟩
        · exact ⟨by omega, Or.inl h1⟩
        · exact ⟨h1.1, Or.inr (Or.inr h1.2)⟩
      · rintro ⟨hN, (h1 | h1 | h1)⟩
        · exact Or.inr (Or.inl h1)
        · exact Or.inl ⟨hN, h1⟩
        · exact Or.inr (Or.inr ⟨hN, h1⟩)
    · rw [if_neg hkN]
      simp only [List.not_mem_nil, false_iff]
      rintro ⟨hN, hsub⟩
      have := inSub_le hsub
      omega

theorem ino_mem {N k j : Nat} (hk : 1 ≤ k) : j ∈ ino N k ↔ j ≤ N ∧ inSub k j :=
  inoF_mem N (N+2) k j hk (by omega)

theorem ino_one_mem {N j : Nat} : j ∈ ino N 1 ↔ 1 ≤ j ∧ j ≤ N := by
  rw [ino_mem (by omega)]
  constructor
  · rintro ⟨hN, hsub⟩
    exact ⟨inSub_le hsub, hN⟩
  · rintro ⟨h1, hN⟩
    exact ⟨hN, inSub_one h1⟩

theorem inoF_nodup (N : Nat) : ∀ f k : Nat, 1 ≤ k → N + 1 - k < f → (inoF N f k).Nodup := by
  intro f
  induction f with
  | zero => intro k _ h; omega
  | succ f' ih =>
    intro k hk hf
    simp only [inoF]
    by_cases hkN : k ≤ N
    · rw [if_pos hkN]
      rw [List.nodup_append]
      have hmemL : ∀ j, j ∈ inoF N f' (2*k) → j ≤ N ∧ inSub (2*k) j := by
        intro j hj
        exact (inoF_mem N f' (2*k) j (by omega) (by omega)).mp hj
      have hmemR : ∀ j, j ∈ inoF N f' (2*k+1) → j ≤ N ∧ inSub (2*k+1) j := by
        intro j hj
        exact (inoF_mem N f' (2*k+1) j (by omega) (by omega)).mp hj
      refine ⟨ih (2*k) (by omega) (by omega), ?_, ?_⟩
      · rw [List.nodup_cons]
        refine ⟨fun hkR => ?_, ih (2*k+1) (by omega) (by omega)⟩
        exact inSub_not_self_right hk (hmemR k hkR).2
      · intro j hjL hjR
        rcases List.mem_cons.mp hjR with h | h
        · exact inSub_not_self_left hk (h ▸ (hmemL j hjL).2)
        · exact inSub_not_both hk ⟨(hmemL j hjL).2, (hmemR j h).2⟩
    · rw [if_neg hkN]
      exact List.nodup_nil

theorem ino_nodup {N k : Nat} (hk : 1 ≤ k) : (ino N k).Nodup :=
  inoF_nodup N (N+2) k hk (by omega)

theorem ino_one_length (N : Nat) : (ino N 1).length = N := by
  have hnd : (ino N 1).Nodup := ino_nodup (by omega)
  have hfin : (ino N 1).toFinset = Finset.Icc 1 N := by
    ext j
    rw [List.mem_toFinset, ino_one_mem, Finset.mem_Icc]
  have := List.toFinset_card_of_nodup hnd
  rw [hfin, Nat.card_Icc] at this
  omega

/-! ## Lemmas: correctness of the Eytzinger permutation generator -/

theorem eySortF_succ (d : Nat) (inpt : List Nat) (f : Nat) (out : List Nat) (i k : Nat) :
    eySortF d inpt (f+1) out i k =
      if k ≤ inpt.length then
        eySortF d inpt f
          ((eySortF d inpt f out i (2*k)).2.set (k-1)
            (inpt.getD (eySortF d inpt f out i (2*k)).1 d))
          ((eySortF d inpt f out i (2*k)).1 + 1) (2*k+1)
      else (i, out) := rfl

theorem eySortF_spec (d : Nat) (inpt : List Nat) :
    ∀ f k i out, 1 ≤ k → inpt.length + 1 - k < f → out.length = inpt.length →
      (eySortF d inpt f out i k).1 = i + (ino inpt.length k).length
      ∧ (eySortF d inpt f out i k).2.length = out.length
      ∧ (∀ j : Nat, j + 1 ∉ ino inpt.length k →
          (eySortF d inpt f out i k).2[j]? = out[j]?)
      ∧ (∀ m : Nat, m < (ino inpt.length k).length →
          (eySortF d inpt f out i k).2[(ino inpt.length k).getD m 0 - 1]?
            = some (inpt.getD (i + m) d)) := by
  intro f
  induction f with
  | zero => intro k i out _ h; omega
  | succ f' ih =>
    intro k i out hk hf hlen
    by_cases hkN : k ≤ inpt.length
    · have hL := ino_unfold hk hkN
      have hr1 := ih (2*k) i out (by omega) (by omega) hlen
      rw [eySortF_succ, if_pos hkN]
      have hlen2 : ((eySortF d inpt f' out i (2*k)).2.set (k-1)
          (inpt.getD (eySortF d inpt f' out i (2*k)).1 d)).length = inpt.length := by
        rw [List.length_set, hr1.2.1, hlen]
      have hr2 := ih (2*k+1) ((eySortF d inpt f' out i (2*k)).1 + 1)
        ((eySortF d inpt f' out i (2*k)).2.set (k-1)
          (inpt.getD (eySortF d inpt f' out i (2*k)).1 d))
        (by omega) (by omega) hlen2
      have hmemL : ∀ s ∈ ino inpt.length (2*k), 2*k ≤ s ∧ s ≤ inpt.length
          ∧ s ≠ k ∧ s ∉ ino inpt.length (2*k+1) := by
        intro s hs
        have h1 := (ino_mem (by omega)).mp hs
        have h2 := inSub_le h1.2
        refine ⟨h2, h1.1, by omega, fun hsR => ?_⟩
        have h3 := (ino_mem (by omega)).mp hsR
        exact inSub_not_both hk ⟨h1.2, h3.2⟩
      have hkL : k ∉ ino inpt.length (2*k) := by
        intro h
        exact inSub_not_self_left hk ((ino_mem (by omega)).mp h).2
      have hkR : k ∉ ino inpt.length (2*k+1) := by
        intro h
        exact inSub_not_self_right hk ((ino_mem (by omega)).mp h).2
      have hinoLen : (ino inpt.length k).length
          = (ino inpt.length (2*k)).length + 1 + (ino inpt.length (2*k+1)).length := by
        rw [hL]
        simp
        omega
      refine ⟨?_, ?_, ?_, ?_⟩
      · rw [hr2.1, hr1.1, hinoLen]
        omega
      · rw [hr2.2.1, List.length_set, hr1.2.1]
      · intro j hj
        rw [hL] at hj
        simp only [List.mem_append, List.mem_cons, not_or] at hj
        rw [hr2.2.2.1 j hj.2.2, List.getElem?_set_ne (by omega), hr1.2.2.1 j hj.1]
      · intro m hm
        rcases Nat.lt_trichotomy m (ino inpt.length (2*k)).length with hcase | hcase | hcase
        · have hgetD : (ino inpt.length k).getD m 0 = (ino inpt.length (2*k)).getD m 0 := by
            rw [hL, List.getD_append _ _ _ _ hcase]
          have hsmem := hmemL _ (getD_mem_of_lt hcase 0)
          rw [hgetD]
          have hs1 : (ino inpt.length (2*k)).getD m 0 - 1 + 1
              = (ino inpt.length (2*k)).getD m 0 := by omega
          rw [hr2.2.2.1 _ (by rw [hs1]; exact hsmem.2.2.2),
            List.getElem?_set_ne (by omega), hr1.2.2.2 m hcase]
        · have hgetD : (ino inpt.length k).getD m 0 = k := by
            rw [hL, List.getD_append_right _ _ _ _ (le_of_eq hcase.symm), hcase,
              Nat.sub_self, List.getD_cons_zero]
          rw [hgetD]
          have hkm1 : k - 1 + 1 = k := by omega
          rw [hr2.2.2.1 _ (by rw [hkm1]; exact hkR),
            List.getElem?_set_self (by rw [hr1.2.1, hlen]; omega), hr1.1, hcase]
        · have hm' : m - (ino inpt.length (2*k)).length - 1
              < (ino inpt.length (2*k+1)).length := by
            rw [hinoLen] at hm
            omega
          have hgetD : (ino inpt.length k).getD m 0
              = (ino inpt.length (2*k+1)).getD (m - (ino inpt.length (2*k)).length - 1) 0 := by
            rw [hL, List.getD_append_right _ _ _ _ (by omega)]
            rw [show m - (ino inpt.length (2*k)).length
              = (m - (ino inpt.length (2*k)).length - 1) + 1 by omega, List.getD_cons_succ]
            congr 1
          rw [hgetD, hr2.2.2.2 _ hm', hr1.1,
            show i + (ino inpt.length (2*k)).length + 1 + (m - (ino inpt.length (2*k)).length - 1)
              = i + m by omega]
    · rw [eySortF_succ, if_neg hkN, ino_of_gt (by omega)]
      refine ⟨by simp, rfl, fun j _ => rfl, fun m hm => by simp at hm⟩

theorem eytzinger_sort_spec (d : Nat) (inpt out : List Nat) (hlen : out.length = inpt.length) :
    (eytzinger_sort d inpt out 0 1).1 = (ino inpt.length 1).length
    ∧ (eytzinger_sort d inpt out 0 1).2.length = out.length
    ∧ (∀ m : Nat, m < (ino inpt.length 1).length →
        (eytzinger_sort d inpt out 0 1).2[(ino inpt.length 1).getD m 0 - 1]?
          = some (inpt.getD m d)) := by
  have h := eySortF_spec d inpt (inpt.length + 2) 1 0 out (by omega) (by omega) hlen
  refine ⟨by simpa using h.1, h.2.1, fun m hm => by simpa using h.2.2.2 m hm⟩

theorem range_map_getD {α : Type} (l : List α) (d : α) :
    (List.range l.length).map (fun i => l.getD i d) = l := by
  apply List.ext_getElem
  · simp
  · intro n h1 h2
    rw [List.getElem_map, List.getElem_range, List.getD_eq_getElem?_getD,
      List.getElem?_eq_getElem h2]
    rfl

theorem ino_sub_one_perm_range (N : Nat) :
    ((ino N 1).map (fun s => s - 1)).Perm (List.range N) := by
  have hnd1 : ((ino N 1).map (fun s => s - 1)).Nodup := by
    refine List.Nodup.map_on ?_ (ino_nodup (by omega))
    intro x hx y hy hxy
    have h1 := (ino_one_mem.mp hx).1
    have h2 := (ino_one_mem.mp hy).1
    omega
  rw [List.perm_ext_iff_of_nodup hnd1 (List.nodup_range N)]
  intro a
  rw [List.mem_range, List.mem_map]
  constructor
  · rintro ⟨s, hs, rfl⟩
    have := ino_one_mem.mp hs
    omega
  · intro ha
    exact ⟨a + 1, ino_one_mem.mpr ⟨by omega, by omega⟩, by omega⟩

theorem eytzinger_sort_perm (d : Nat) (inpt out : List Nat)
    (hlen : out.length = inpt.length) :
    (eytzinger_sort d inpt out 0 1).1 = inpt.length
    ∧ (eytzinger_sort d inpt out 0 1).2.Perm inpt := by
  obtain ⟨h1, h2, h4⟩ := eytzinger_sort_spec d inpt out hlen
  have hN := ino_one_length inpt.length
  refine ⟨by rw [h1, hN], ?_⟩
  have hres : ((ino inpt.length 1).map (fun s => s - 1)).map
      (fun j => (eytzinger_sort d inpt out 0 1).2.getD j d) = inpt := by
    rw [List.map_map]
    apply List.ext_getElem
    · simp [hN]
    · intro m hm1 hm2
      rw [List.getElem_map]
      have hmlt : m < (ino inpt.length 1).length := by simpa [hN] using hm2
      have hstep := h4 m hmlt
      have hget : (ino inpt.length 1)[m] = (ino inpt.length 1).getD m 0 := by
        rw [List.getD_eq_getElem?_getD, List.getElem?_eq_getElem hmlt]
        rfl
      simp only [Function.comp]
      rw [hget, List.getD_eq_getElem?_getD, hstep]
      simp only [Option.getD_some]
      rw [List.getD_eq_getElem?_getD, List.getElem?_eq_getElem hm2]
      rfl
  have hself : (List.range inpt.length).map
      (fun j => (eytzinger_sort d inpt out 0 1).2.getD j d)
      = (eytzinger_sort d inpt out 0 1).2 := by
    have hl2 : (eytzinger_sort d inpt out 0 1).2.length = inpt.length := by
      rw [h2, hlen]
    conv_rhs => rw [← range_map_getD (eytzinger_sort d inpt out 0 1).2 d]
    rw [hl2]
  have hperm := (ino_sub_one_perm_range inpt.length).map
    (fun j => (eytzinger_sort d inpt out 0 1).2.getD j d)
  rw [hres, hself] at hperm
  exact hperm.symm

theorem eyLabels_eq_sort (S : List Nat) :
    (eytzinger_sort_indices S.length).map (fun j => S.getD j 0)
      = (eytzinger_sort 0 S (List.replicate S.length 0) 0 1).2 := by
  obtain ⟨_, hidxlen, hidx⟩ := eytzinger_sort_spec 0 (List.range S.length)
    (List.replicate S.length 0) (by simp)
  obtain ⟨_, hslen, hs⟩ := eytzinger_sort_spec 0 S (List.replicate S.length 0) (by simp)
  simp only [List.length_replicate] at hidxlen hslen
  simp only [List.length_range] at hidx
  have hN := ino_one_length S.length
  have hjlen : (eytzinger_sort_indices S.length).length = S.length := hidxlen
  apply List.ext_getElem
  · rw [List.length_map, hjlen, hslen]
  · intro j hj1 hj2
    have hjN : j < S.length := by rwa [List.length_map, hjlen] at hj1
    obtain ⟨m, hmlt, hm⟩ := List.getElem_of_mem
      (ino_one_mem.mpr ⟨by omega, by omega⟩ : j + 1 ∈ ino S.length 1)
    have hgetDm : (ino S.length 1).getD m 0 = j + 1 := by
      rw [List.getD_eq_getElem?_getD, List.getElem?_eq_getElem hmlt, hm]
      rfl
    have hidxj := hidx m hmlt
    have hsj := hs m hmlt
    rw [hgetDm] at hidxj hsj
    simp only [Nat.add_sub_cancel] at hidxj hsj
    have hmN : m < S.length := by rwa [hN] at hmlt
    have hrangem : (List.range S.length).getD m 0 = m := by
      rw [List.getD_eq_getElem?_getD, List.getElem?_eq_getElem (by simpa using hmN),
        List.getElem_range]
      rfl
    rw [hrangem] at hidxj
    rw [List.getElem_map]
    have hj1' : j < (eytzinger_sort_indices S.length).length := by
      rw [hjlen]
      exact hjN
    have hidxval : (eytzinger_sort_indices S.length)[j] = m :=
      Option.some_injective _ ((List.getElem?_eq_getElem hj1').symm.trans hidxj)
    rw [hidxval]
    have hfin : (eytzinger_sort 0 S (List.replicate S.length 0) 0 1).2[j]?
        = some (S.getD m 0) := hsj
    rw [List.getElem?_eq_getElem hj2] at hfin
    exact (Option.some_injective _ hfin).symm

theorem vals_ino_eq (S : List Nat) :
    (ino S.length 1).map
      (fun s => (eytzinger_sort 0 S (List.replicate S.length 0) 0 1).2.getD (s - 1) 0) = S := by
  obtain ⟨_, _, hs⟩ := eytzinger_sort_spec 0 S (List.replicate S.length 0) (by simp)
  have hN := ino_one_length S.length
  apply List.ext_getElem
  · simp [hN]
  · intro m hm1 hm2
    have hmlt : m < (ino S.length 1).length := by simpa using hm1
    rw [List.getElem_map]
    have := hs m hmlt
    have hget : (ino S.length 1)[m] = (ino S.length 1).getD m 0 := by
      rw [List.getD_eq_getElem?_getD, List.getElem?_eq_getElem hmlt]
      rfl
    rw [hget, List.getD_eq_getElem?_getD, this]
    simp only [Option.getD_some]
    rw [List.getD_eq_getElem?_getD, List.getElem?_eq_getElem hm2]
    rfl

/-! ## Lemmas: correctness of the Eytzinger search -/

theorem searchLoopF_succ (E : List (Nat × Nat)) (T f k : Nat) :
    searchLoopF E T (f+1) k =
      if k ≤ E.length then
        searchLoopF E T f (2*k + (if (E.getD (k-1) (0,0)).1 < T then 1 else 0))
      else k := rfl

theorem searchLoop_master (E : List (Nat × Nat)) (T : Nat) :
    ∀ f k, 1 ≤ k → E.length + 1 - k < f →
      List.Pairwise (· < ·)
        ((ino E.length k).map (fun s => (E.getD (s-1) (0,0)).1)) →
      extractSlot (searchLoopF E T f k)
        = match (ino E.length k).find? (fun s => decide (T ≤ (E.getD (s-1) (0,0)).1)) with
          | some s => s
          | none => extractSlot k := by
  intro f
  induction f with
  | zero => intro k _ h; omega
  | succ f' ih =>
    intro k hk hf hpw
    by_cases hkN : k ≤ E.length
    · have hL := ino_unfold hk hkN
      rw [hL, List.map_append, List.map_cons] at hpw
      rw [List.pairwise_append] at hpw
      obtain ⟨hpwL, hpwKR, hcross⟩ := hpw
      rw [List.pairwise_cons] at hpwKR
      obtain ⟨hkR, hpwR⟩ := hpwKR
      rw [searchLoopF_succ, if_pos hkN, hL, List.find?_append]
      by_cases hlt : (E.getD (k-1) (0,0)).1 < T
      · rw [if_pos hlt]
        have hLnone : (ino E.length (2*k)).find?
            (fun s => decide (T ≤ (E.getD (s-1) (0,0)).1)) = none := by
          rw [List.find?_eq_none]
          intro s hs
          have hless : (E.getD (s-1) (0,0)).1 < (E.getD (k-1) (0,0)).1 :=
            hcross _ (List.mem_map_of_mem _ hs) _ (List.mem_cons_self _ _)
          simp only [decide_eq_true_eq]
          omega
        have hknot : ¬ (decide (T ≤ (E.getD (k-1) (0,0)).1) = true) := by
          simp only [decide_eq_true_eq]
          omega
        rw [hLnone, Option.none_or,
          @List.find?_cons_of_neg _ (fun s => decide (T ≤ (E.getD (s-1) (0,0)).1)) k
            (ino E.length (2*k+1)) hknot]
        have hstep := ih (2*k+1) (by omega) (by omega) hpwR
        rw [hstep, extractSlot_two_mul_add_one]
      · rw [if_neg hlt]
        have hstep := ih (2*k) (by omega) (by omega) hpwL
        rw [show 2*k + 0 = 2*k by ring, hstep]
        have hkpos : decide (T ≤ (E.getD (k-1) (0,0)).1) = true := by
          simp only [decide_eq_true_eq]
          omega
        cases hfind : (ino E.length (2*k)).find?
            (fun s => decide (T ≤ (E.getD (s-1) (0,0)).1)) with
        | none =>
          rw [Option.none_or,
            @List.find?_cons_of_pos _ (fun s => decide (T ≤ (E.getD (s-1) (0,0)).1)) k
              (ino E.length (2*k+1)) hkpos]
          simp [extractSlot_two_mul]
        | some s =>
          rfl
    · have hempty : ino E.length k = [] := ino_of_gt (by omega)
      rw [searchLoopF_succ, if_neg hkN, hempty]
      rfl

theorem find?_first_of_pairwise (E : List (Nat × Nat)) (T : Nat) (l : List Nat)
    (hpw : List.Pairwise (· < ·) (l.map (fun s => (E.getD (s-1) (0,0)).1)))
    (s0 : Nat) (hs0 : s0 ∈ l) (hv : (E.getD (s0-1) (0,0)).1 = T) :
    l.find? (fun s => decide (T ≤ (E.getD (s-1) (0,0)).1)) = some s0 := by
  induction l with
  | nil => cases hs0
  | cons h t ih =>
    rw [List.map_cons, List.pairwise_cons] at hpw
    rcases List.mem_cons.mp hs0 with hcase | hcase
    · subst hcase
      exact List.find?_cons_of_pos _ (by simp only [decide_eq_true_eq]; exact hv.ge)
    · have hlt : (E.getD (h-1) (0,0)).1 < (E.getD (s0-1) (0,0)).1 :=
        hpw.1 _ (List.mem_map_of_mem _ hcase)
      rw [@List.find?_cons_of_neg _ (fun s => decide (T ≤ (E.getD (s-1) (0,0)).1)) h t
          (by simp only [decide_eq_true_eq]; omega),
        ih hpw.2 hcase]

theorem search_found (E : List (Nat × Nat)) (T : Nat)
    (hpw : List.Pairwise (· < ·)
      ((ino E.length 1).map (fun s => (E.getD (s-1) (0,0)).1)))
    (s0 : Nat) (hs0 : s0 ∈ ino E.length 1) (hv : (E.getD (s0-1) (0,0)).1 = T) :
    eytzinger_binary_search T E = (s0 : Int) - 1 := by
  have hm := searchLoop_master E T (E.length + 2) 1 (by omega) (by omega) hpw
  have hfind := find?_first_of_pairwise E T (ino E.length 1) hpw s0 hs0 hv
  simp only [eytzinger_binary_search]
  rw [hm, hfind]
  have hbounds := ino_one_mem.mp hs0
  have hj : (match (some s0 : Option Nat) with | some t => t | none => extractSlot 1) = s0 := rfl
  rw [hj, if_pos ⟨hbounds.1, hbounds.2, hv⟩]

theorem search_absent (E : List (Nat × Nat)) (T : Nat)
    (hpw : List.Pairwise (· < ·)
      ((ino E.length 1).map (fun s => (E.getD (s-1) (0,0)).1)))
    (habs : ∀ s ∈ ino E.length 1, (E.getD (s-1) (0,0)).1 ≠ T) :
    eytzinger_binary_search T E = -1 := by
  have hm := searchLoop_master E T (E.length + 2) 1 (by omega) (by omega) hpw
  simp only [eytzinger_binary_search]
  rw [hm]
  cases hfind : (ino E.length 1).find?
      (fun s => decide (T ≤ (E.getD (s-1) (0,0)).1)) with
  | none =>
    have hj : (match (none : Option Nat) with | some t => t | none => extractSlot 1) = 0 :=
      extractSlot_one
    rw [hj, if_neg (fun hcond => by omega)]
  | some s =>
    have hmem := List.mem_of_find?_eq_some hfind
    have hne := habs s hmem
    have hj : (match (some s : Option Nat) with | some t => t | none => extractSlot 1) = s := rfl
    rw [hj, if_neg (fun hcond => hne hcond.2.2)]

/-! ## Lemmas: the emitted buffer of the writer -/

theorem sortedLabels_length (data : List (Nat × List Nat)) :
    (sortedLabels data).length = data.length := by
  unfold sortedLabels
  rw [(List.perm_insertionSort _ _).length_eq, List.length_map]

theorem eytzinger_sort_indices_length (N : Nat) : (eytzinger_sort_indices N).length = N := by
  obtain ⟨_, h2, _⟩ := eytzinger_sort_spec 0 (List.range N) (List.replicate N 0) (by simp)
  unfold eytzinger_sort_indices
  rw [h2]
  simp

theorem eyLabels_length (data : List (Nat × List Nat)) :
    (eyLabels data).length = data.length := by
  unfold eyLabels
  rw [List.length_map, eytzinger_sort_indices_length]

theorem eyLabels_eq (data : List (Nat × List Nat)) :
    eyLabels data = (eytzinger_sort 0 (sortedLabels data)
      (List.replicate data.length 0) 0 1).2 := by
  unfold eyLabels
  have h := eyLabels_eq_sort (sortedLabels data)
  rw [sortedLabels_length] at h
  exact h

theorem eyLabels_perm (data : List (Nat × List Nat)) :
    (eyLabels data).Perm (data.map Prod.fst) := by
  rw [eyLabels_eq]
  have h := (eytzinger_sort_perm 0 (sortedLabels data) (List.replicate data.length 0)
    (by simp [sortedLabels_length])).2
  exact h.trans (List.perm_insertionSort _ _)

theorem sortedLabels_pairwise (data : List (Nat × List Nat))
    (hnd : (data.map Prod.fst).Nodup) :
    List.Pairwise (· < ·) (sortedLabels data) := by
  have hsorted : List.Sorted (· ≤ ·) (sortedLabels data) :=
    List.sorted_insertionSort _ _
  have hnd2 : (sortedLabels data).Nodup :=
    (List.perm_insertionSort _ _).nodup_iff.mpr hnd
  exact List.Sorted.lt_of_le hsorted hnd2

theorem vals_ino_eyLabels (data : List (Nat × List Nat)) :
    (ino data.length 1).map (fun s => (eyLabels data).getD (s-1) 0)
      = sortedLabels data := by
  have h := vals_ino_eq (sortedLabels data)
  rw [sortedLabels_length] at h
  rw [eyLabels_eq]
  exact h

theorem headerOf16_length (data : List (Nat × List Nat)) :
    (headerOf16 data).length = 16 := by
  unfold headerOf16 MAGIC noneTag
  simp [length_toBytesLE]

theorem blobOf_length (v : List Nat) : (blobOf v).length = v.length + 4 := by
  unfold blobOf crcBytes
  simp [length_toBytesLE]

theorem pairBytes_length (p : Nat × Nat) : (pairBytes p).length = 16 := by
  unfold pairBytes
  simp [length_toBytesLE]

theorem offsetsAux_length (lens : List Nat) (s : Nat) :
    (offsetsAux s lens).length = lens.length := by
  induction lens generalizing s with
  | nil => rfl
  | cons l rest ih => simp [offsetsAux, ih]

theorem offsetsAux_getD (lens : List Nat) : ∀ s i, i < lens.length →
    (offsetsAux s lens).getD i 0 = s + ((lens.take i).sum) := by
  induction lens with
  | nil => intro s i h; simp at h
  | cons l rest ih =>
    intro s i h
    cases i with
    | zero => simp [offsetsAux]
    | succ j =>
      rw [show offsetsAux s (l :: rest) = s :: offsetsAux (s+l) rest from rfl,
        List.getD_cons_succ, ih (s+l) j (by simpa using h)]
      simp [List.take_succ_cons]
      omega

theorem blobLens_length (data : List (Nat × List Nat)) :
    (blobLens data).length = data.length := by
  unfold blobLens
  rw [List.length_map, eyLabels_length]

theorem offsetsOf_length (data : List (Nat × List Nat)) :
    (offsetsOf data).length = data.length := by
  unfold offsetsOf
  rw [offsetsAux_length, blobLens_length]

theorem pySlice_append_inner (pre x : List Nat) (a b : Nat) :
    pySlice (pre ++ x) (pre.length + a) (pre.length + b) = pySlice x a b := by
  unfold pySlice
  rw [List.take_append, List.drop_append]

theorem pySlice_flatten_chunk (L : Nat) :
    ∀ (cs : List (List Nat)) (rest : List Nat) (i : Nat), (∀ c ∈ cs, c.length = L) →
      i < cs.length → pySlice (cs.flatten ++ rest) (L*i) (L*i + L) = cs.getD i [] := by
  intro cs
  induction cs with
  | nil => intro rest i _ h; simp at h
  | cons c cs' ih =>
    intro rest i hlens hi
    have hc : c.length = L := hlens c (List.mem_cons_self _ _)
    cases i with
    | zero =>
      simp only [Nat.mul_zero, Nat.zero_add, List.getD_cons_zero, List.flatten_cons,
        List.append_assoc]
      unfold pySlice
      rw [← hc, List.take_left, List.drop_zero]
    | succ j =>
      have hstep : (c :: cs').flatten ++ rest = c ++ (cs'.flatten ++ rest) := by
        simp
      have harg2 : L*(j+1) + L = c.length + (L*j + L) := by
        rw [hc]
        ring
      have harg1 : L*(j+1) = c.length + L*j := by
        rw [hc]
        ring
      rw [hstep, harg2, harg1, pySlice_append_inner, List.getD_cons_succ]
      exact ih rest j (fun d hd => hlens d (List.mem_cons_of_mem _ hd)) (by simpa using hi)

theorem flatten_pairBytes (l : List (Nat × Nat)) :
    ((l.map (fun p => [toBytesLE p.1 8, toBytesLE p.2 8])).flatten).flatten
      = (l.map pairBytes).flatten := by
  induction l with
  | nil => rfl
  | cons p rest ih =>
    simp only [List.map_cons, List.flatten_cons]
    rw [List.flatten_append, ih]
    unfold pairBytes
    simp

theorem chunks8_length (l : List (Nat × Nat)) :
    ((l.map (fun p => [toBytesLE p.1 8, toBytesLE p.2 8])).flatten).length = 2 * l.length := by
  induction l with
  | nil => rfl
  | cons p rest ih =>
    simp only [List.map_cons, List.flatten_cons, List.length_append, ih]
    simp
    omega

theorem chunks8_all8 (l : List (Nat × Nat)) :
    ∀ c ∈ (l.map (fun p => [toBytesLE p.1 8, toBytesLE p.2 8])).flatten, c.length = 8 := by
  induction l with
  | nil => simp
  | cons p rest ih =>
    simp only [List.map_cons, List.flatten_cons]
    intro c hc
    rcases List.mem_append.mp hc with h | h
    · rcases List.mem_cons.mp h with h1 | h1
      · rw [h1, length_toBytesLE]
      · rcases List.mem_cons.mp h1 with h2 | h2
        · rw [h2, length_toBytesLE]
        · cases h2
    · exact ih c h

theorem chunks8_getD_even (l : List (Nat × Nat)) : ∀ i, i < l.length →
    ((l.map (fun p => [toBytesLE p.1 8, toBytesLE p.2 8])).flatten).getD (2*i) []
      = toBytesLE (l.getD i (0,0)).1 8 := by
  induction l with
  | nil => intro i h; simp at h
  | cons p rest ih =>
    intro i hi
    cases i with
    | zero => simp
    | succ j =>
      simp only [List.map_cons, List.flatten_cons, List.cons_append, List.nil_append]
      rw [show 2*(j+1) = (2*j) + 1 + 1 by ring, List.getD_cons_succ, List.getD_cons_succ,
        List.getD_cons_succ]
      exact ih j (by simpa using hi)

theorem chunks8_getD_odd (l : List (Nat × Nat)) : ∀ i, i < l.length →
    ((l.map (fun p => [toBytesLE p.1 8, toBytesLE p.2 8])).flatten).getD (2*i+1) []
      = toBytesLE (l.getD i (0,0)).2 8 := by
  induction l with
  | nil => intro i h; simp at h
  | cons p rest ih =>
    intro i hi
    cases i with
    | zero => simp
    | succ j =>
      simp only [List.map_cons, List.flatten_cons, List.cons_append, List.nil_append]
      rw [show 2*(j+1)+1 = (2*j+1) + 1 + 1 by ring, List.getD_cons_succ, List.getD_cons_succ,
        List.getD_cons_succ]
      exact ih j (by simpa using hi)

theorem indexBytes_length (data : List (Nat × List Nat)) :
    ((((eyLabels data).zip (offsetsOf data)).map pairBytes).flatten).length
      = 16 * data.length := by
  rw [List.length_flatten, List.map_map]
  have hconst : (((eyLabels data).zip (offsetsOf data)).map (List.length ∘ pairBytes))
      = ((eyLabels data).zip (offsetsOf data)).map (fun _ => 16) := by
    apply List.map_congr_left
    intro p _
    exact pairBytes_length p
  rw [hconst, List.map_const']
  rw [List.sum_replicate, List.length_zip, eyLabels_length, offsetsOf_length]
  simp [smul_eq_mul]
  ring

theorem dataRegion_length (data : List (Nat × List Nat)) :
    (((eyLabels data).map (fun k => blobOf (valueOf data k))).flatten).length
      = (blobLens data).sum := by
  rw [List.length_flatten, List.map_map]
  rfl

theorem dict2buf_length (data : List (Nat × List Nat)) (h : data.length ≠ 0) :
    (dict2buf data).length = 16 + 16 * data.length + (blobLens data).sum := by
  unfold dict2buf
  rw [if_neg h]
  rw [List.length_append, List.length_append, headerOf16_length, indexBytes_length,
    dataRegion_length]

theorem sum_take_le (l : List Nat) (i : Nat) : (l.take i).sum ≤ l.sum := by
  conv_rhs => rw [← List.take_append_drop i l]
  rw [List.sum_append]
  omega

theorem offsetsOf_le (data : List (Nat × List Nat)) (i : Nat) (hi : i < data.length) :
    (offsetsOf data).getD i 0 ≤ 16 + 16 * data.length + (blobLens data).sum := by
  unfold offsetsOf
  rw [offsetsAux_getD _ _ _ (by rw [blobLens_length]; exact hi)]
  have := sum_take_le (blobLens data) i
  omega

theorem headerOf16_literal (data : List (Nat × List Nat)) :
    headerOf16 data = [109, 97, 112, 98, 117, 102, 114, 1, 110, 111, 110, 101]
      ++ toBytesLE data.length 4 := rfl

theorem numEntries_dict2buf (data : List (Nat × List Nat)) (hN32 : data.length < 2^32) :
    numEntries (dict2buf data) = data.length := by
  have hdrop : ((headerOf16 data).take 16).drop 12 = toBytesLE data.length 4 := by
    rw [show (16 : Nat) = (headerOf16 data).length by rw [headerOf16_length], List.take_length,
      headerOf16_literal,
      show (12 : Nat)
        = ([109, 97, 112, 98, 117, 102, 114, 1, 110, 111, 110, 101] : List Nat).length from rfl,
      List.drop_left]
  unfold numEntries dict2buf
  by_cases h : data.length = 0
  · rw [if_pos h, hdrop, fromBytesLE_toBytesLE _ _ (by norm_num [h])]
  · rw [if_neg h]
    have htake : ((headerOf16 data ++ ((((eyLabels data).zip (offsetsOf data)).map
        pairBytes).flatten ++ ((eyLabels data).map (fun k => blobOf (valueOf data k))).flatten)).take 16)
        = (headerOf16 data).take 16 := by
      rw [show (16 : Nat) = (headerOf16 data).length by rw [headerOf16_length],
        List.take_left, List.take_length]
    rw [List.append_assoc, htake, hdrop,
      fromBytesLE_toBytesLE _ _ (by norm_num at hN32 ⊢; omega)]

theorem format_version_dict2buf (data : List (Nat × List Nat)) :
    format_version (dict2buf data) = 1 := by
  unfold format_version dict2buf
  by_cases h : data.length = 0
  · rw [if_pos h]
    rfl
  · rw [if_neg h, headerOf16_literal]
    rfl

theorem zip_getD (l1 l2 : List Nat) (i : Nat) (h1 : i < l1.length) (h2 : i < l2.length) :
    (l1.zip l2).getD i (0,0) = (l1.getD i 0, l2.getD i 0) := by
  have hz : i < (l1.zip l2).length := by
    rw [List.length_zip]
    omega
  rw [List.getD_eq_getElem?_getD, List.getElem?_eq_getElem hz]
  simp only [Option.getD_some, List.getElem_zip]
  rw [List.getD_eq_getElem?_getD, List.getElem?_eq_getElem h1,
    List.getD_eq_getElem?_getD, List.getElem?_eq_getElem h2]
  rfl

theorem eyLabels_getD_lt (data : List (Nat × List Nat))
    (hkeys : ∀ k ∈ data.map Prod.fst, k < 2^64) (i : Nat) (hi : i < data.length) :
    (eyLabels data).getD i 0 < 2^64 := by
  have hmem : (eyLabels data).getD i 0 ∈ eyLabels data :=
    getD_mem_of_lt (by rw [eyLabels_length]; exact hi) 0
  exact hkeys _ ((eyLabels_perm data).mem_iff.mp hmem)

theorem offsetsOf_lt (data : List (Nat × List Nat))
    (hlen64 : (dict2buf data).length < 2^64) (hne : data.length ≠ 0)
    (i : Nat) (hi : i < data.length) : (offsetsOf data).getD i 0 < 2^64 := by
  have h1 := offsetsOf_le data i hi
  rw [dict2buf_length data hne] at hlen64
  omega

theorem indexPairs_dict2buf (data : List (Nat × List Nat))
    (hN32 : data.length < 2^32)
    (hkeys : ∀ k ∈ data.map Prod.fst, k < 2^64)
    (hlen64 : (dict2buf data).length < 2^64) :
    indexPairs (dict2buf data) = (eyLabels data).zip (offsetsOf data) := by
  by_cases hzero : data.length = 0
  · unfold indexPairs
    rw [numEntries_dict2buf data hN32, hzero]
    have : eyLabels data = [] := List.length_eq_zero.mp (by rw [eyLabels_length]; exact hzero)
    simp [this]
  · unfold indexPairs
    rw [numEntries_dict2buf data hN32]
    apply List.ext_getElem
    · rw [List.length_map, List.length_range, List.length_zip, eyLabels_length,
        offsetsOf_length]
      simp
    · intro i hi1 hi2
      have hiN : i < data.length := by
        rwa [List.length_map, List.length_range] at hi1
      rw [List.getElem_map, List.getElem_range, List.getElem_zip]
      have hbufsplit : dict2buf data = headerOf16 data
          ++ (((((eyLabels data).zip (offsetsOf data)).map (fun p =>
              [toBytesLE p.1 8, toBytesLE p.2 8])).flatten).flatten
            ++ ((eyLabels data).map (fun k => blobOf (valueOf data k))).flatten) := by
        unfold dict2buf
        rw [if_neg hzero, List.append_assoc, flatten_pairBytes]
      have hziplen : i < ((eyLabels data).zip (offsetsOf data)).length := by
        rw [List.length_zip, eyLabels_length, offsetsOf_length]
        omega
      have hkey : pySlice (dict2buf data) (16 + 16*i) (16 + 16*i + 8)
          = toBytesLE ((eyLabels data).getD i 0) 8 := by
        rw [hbufsplit,
          show 16 + 16*i = (headerOf16 data).length + 8*(2*i) by
            rw [headerOf16_length]; ring,
          show (headerOf16 data).length + 8*(2*i) + 8
            = (headerOf16 data).length + (8*(2*i) + 8) by ring,
          pySlice_append_inner,
          pySlice_flatten_chunk 8 _ _ (2*i) (chunks8_all8 _)
            (by rw [chunks8_length]; omega),
          chunks8_getD_even _ i (by omega)]
        rw [zip_getD _ _ i (by rw [eyLabels_length]; omega) (by rw [offsetsOf_length]; omega)]
      have hoff : pySlice (dict2buf data) (16 + 16*i + 8) (16 + 16*i + 16)
          = toBytesLE ((offsetsOf data).getD i 0) 8 := by
        rw [hbufsplit,
          show 16 + 16*i + 8 = (headerOf16 data).length + 8*(2*i+1) by
            rw [headerOf16_length]; ring,
          show 16 + 16*i + 16 = (headerOf16 data).length + (8*(2*i+1) + 8) by
            rw [headerOf16_length]; ring,
          pySlice_append_inner,
          pySlice_flatten_chunk 8 _ _ (2*i+1) (chunks8_all8 _)
            (by rw [chunks8_length]; omega),
          chunks8_getD_odd _ i (by omega)]
        rw [zip_getD _ _ i (by rw [eyLabels_length]; omega) (by rw [offsetsOf_length]; omega)]
      rw [hkey, hoff, fromBytesLE_toBytesLE _ _ (by
          have h1 := eyLabels_getD_lt data hkeys i hiN
          have h2 : (256:Nat)^8 = 2^64 := by norm_num
          omega),
        fromBytesLE_toBytesLE _ _ (by
          have h1 := offsetsOf_lt data hlen64 hzero i hiN
          have h2 : (256:Nat)^8 = 2^64 := by norm_num
          omega)]
      have hil : i < (eyLabels data).length := by rw [eyLabels_length]; omega
      have hio : i < (offsetsOf data).length := by rw [offsetsOf_length]; omega
      have hg1 : (eyLabels data).getD i 0 = (eyLabels data)[i] := by
        rw [List.getD_eq_getElem?_getD, List.getElem?_eq_getElem hil]
        rfl
      have hg2 : (offsetsOf data).getD i 0 = (offsetsOf data)[i] := by
        rw [List.getD_eq_getElem?_getD, List.getElem?_eq_getElem hio]
        rfl
      rw [hg1, hg2]

/-! ## Lemmas: reading a value back out of the buffer -/

theorem flatten_pySlice (bs : List (List Nat)) : ∀ i, i < bs.length →
    pySlice bs.flatten (((bs.map List.length).take i).sum)
      (((bs.map List.length).take (i+1)).sum) = bs.getD i [] := by
  induction bs with
  | nil => intro i h; simp at h
  | cons b bs' ih =>
    intro i hi
    cases i with
    | zero =>
      simp only [List.map_cons, List.take_zero, List.sum_nil, List.take_succ_cons,
        List.take_zero, List.sum_cons, List.sum_nil, Nat.add_zero, List.getD_cons_zero,
        List.flatten_cons]
      unfold pySlice
      rw [List.take_left, List.drop_zero]
    | succ j =>
      simp only [List.map_cons, List.take_succ_cons, List.sum_cons, List.flatten_cons,
        List.getD_cons_succ]
      rw [pySlice_append_inner]
      exact ih j (by simpa using hi)

theorem flatten_drop (bs : List (List Nat)) : ∀ i,
    List.drop (((bs.map List.length).take i).sum) bs.flatten = (bs.drop i).flatten := by
  induction bs with
  | nil => intro i; simp
  | cons b bs' ih =>
    intro i
    cases i with
    | zero => simp
    | succ j =>
      simp only [List.map_cons, List.take_succ_cons, List.sum_cons, List.flatten_cons,
        List.drop_succ_cons]
      rw [List.drop_append]
      exact ih j

theorem lookup_of_mem_nodup (data : List (Nat × List Nat)) (k : Nat) (v : List Nat)
    (hnd : (data.map Prod.fst).Nodup) (hmem : (k, v) ∈ data) :
    data.lookup k = some v := by
  induction data with
  | nil => cases hmem
  | cons p rest ih =>
    rw [List.map_cons, List.nodup_cons] at hnd
    rcases List.mem_cons.mp hmem with h | h
    · rw [← h]
      simp [List.lookup]
    · have hkrest : k ∈ rest.map Prod.fst := List.mem_map_of_mem _ h
      have hne : k ≠ p.1 := fun he => hnd.1 (he ▸ hkrest)
      have hbeq : (k == p.1) = false := beq_eq_false_iff_ne.mpr hne
      simp only [List.lookup, hbeq]
      exact ih hnd.2 h

theorem dict2buf_data_split (data : List (Nat × List Nat)) (h : data.length ≠ 0) :
    dict2buf data = (headerOf16 data
        ++ (((eyLabels data).zip (offsetsOf data)).map pairBytes).flatten)
      ++ ((eyLabels data).map (fun k => blobOf (valueOf data k))).flatten := by
  unfold dict2buf
  rw [if_neg h, List.append_assoc]

theorem blobs_map_length (data : List (Nat × List Nat)) :
    (((eyLabels data).map (fun k => blobOf (valueOf data k))).map List.length)
      = blobLens data := by
  rw [List.map_map]
  rfl

theorem dict2buf_blob_slice (data : List (Nat × List Nat))
    (hN32 : data.length < 2^32)
    (hkeys : ∀ k ∈ data.map Prod.fst, k < 2^64)
    (hlen64 : (dict2buf data).length < 2^64)
    (i : Nat) (hi : i < data.length) :
    (if i < data.length - 1 then
        pySlice (dict2buf data) ((indexPairs (dict2buf data)).getD i (0,0)).2
          ((indexPairs (dict2buf data)).getD (i+1) (0,0)).2
      else (dict2buf data).drop ((indexPairs (dict2buf data)).getD i (0,0)).2)
      = blobOf (valueOf data ((eyLabels data).getD i 0)) := by
  have hzero : data.length ≠ 0 := by omega
  have hidx := indexPairs_dict2buf data hN32 hkeys hlen64
  have hpre2len : (headerOf16 data
      ++ (((eyLabels data).zip (offsetsOf data)).map pairBytes).flatten).length
      = 16 + 16 * data.length := by
    rw [List.length_append, headerOf16_length, indexBytes_length]
  have hoffval : ∀ j, j < data.length →
      ((indexPairs (dict2buf data)).getD j (0,0)).2
        = 16 + 16 * data.length + ((blobLens data).take j).sum := by
    intro j hj
    rw [hidx, zip_getD _ _ j (by rw [eyLabels_length]; omega) (by rw [offsetsOf_length]; omega)]
    show (offsetsOf data).getD j 0 = _
    unfold offsetsOf
    rw [offsetsAux_getD _ _ _ (by rw [blobLens_length]; omega)]
  have hblobget : ((eyLabels data).map (fun k => blobOf (valueOf data k))).getD i []
      = blobOf (valueOf data ((eyLabels data).getD i 0)) :=
    getD_map_of_lt _ _ (by rw [eyLabels_length]; omega) 0 []
  by_cases hlast : i < data.length - 1
  · rw [if_pos hlast]
    rw [hoffval i hi, hoffval (i+1) (by omega)]
    rw [dict2buf_data_split data hzero,
      show 16 + 16 * data.length + ((blobLens data).take i).sum
        = (headerOf16 data
          ++ (((eyLabels data).zip (offsetsOf data)).map pairBytes).flatten).length
          + ((blobLens data).take i).sum by rw [hpre2len],
      show 16 + 16 * data.length + ((blobLens data).take (i+1)).sum
        = (headerOf16 data
          ++ (((eyLabels data).zip (offsetsOf data)).map pairBytes).flatten).length
          + ((blobLens data).take (i+1)).sum by rw [hpre2len],
      pySlice_append_inner]
    rw [← blobs_map_length data] at *
    rw [flatten_pySlice _ i (by rw [List.length_map, eyLabels_length]; omega)]
    exact hblobget
  · rw [if_neg hlast]
    have hieq : i = data.length - 1 := by omega
    rw [hoffval i hi, dict2buf_data_split data hzero,
      show 16 + 16 * data.length + ((blobLens data).take i).sum
        = (headerOf16 data
          ++ (((eyLabels data).zip (offsetsOf data)).map pairBytes).flatten).length
          + ((blobLens data).take i).sum by rw [hpre2len],
      List.drop_append]
    rw [← blobs_map_length data]
    rw [flatten_drop]
    have hblen : ((eyLabels data).map (fun k => blobOf (valueOf data k))).length
        = data.length := by
      rw [List.length_map, eyLabels_length]
    rw [List.drop_eq_getElem_cons (by omega : i < ((eyLabels data).map
        (fun k => blobOf (valueOf data k))).length)]
    rw [show i + 1 = ((eyLabels data).map (fun k => blobOf (valueOf data k))).length by omega,
      List.drop_length]
    simp only [List.flatten_cons, List.flatten_nil, List.append_nil]
    rw [← hblobget, List.getD_eq_getElem?_getD, List.getElem?_eq_getElem (by omega)]
    rfl

theorem getindex_dict2buf (data : List (Nat × List Nat))
    (hN32 : data.length < 2^32)
    (hkeys : ∀ k ∈ data.map Prod.fst, k < 2^64)
    (hlen64 : (dict2buf data).length < 2^64)
    (cc : Bool) (i : Nat) (hi : i < data.length) :
    getindex (dict2buf data) cc i
      = .ok (valueOf data ((eyLabels data).getD i 0)) := by
  have hidxlen : (indexPairs (dict2buf data)).length = data.length := by
    rw [indexPairs_dict2buf data hN32 hkeys hlen64, List.length_zip, eyLabels_length,
      offsetsOf_length]
    simp
  have hvalue := dict2buf_blob_slice data hN32 hkeys hlen64 i hi
  unfold getindex
  rw [format_version_dict2buf data]
  simp only [hidxlen, if_true]
  rw [hvalue]
  have hbloblen : (blobOf (valueOf data ((eyLabels data).getD i 0))).length
      = (valueOf data ((eyLabels data).getD i 0)).length + 4 := blobOf_length _
  rw [hbloblen]
  have hdrop4 : (blobOf (valueOf data ((eyLabels data).getD i 0))).drop
      ((valueOf data ((eyLabels data).getD i 0)).length + 4 - 4)
      = crcBytes (valueOf data ((eyLabels data).getD i 0)) := by
    unfold blobOf
    rw [Nat.add_sub_cancel, List.drop_left]
  have htake4 : (blobOf (valueOf data ((eyLabels data).getD i 0))).take
      ((valueOf data ((eyLabels data).getD i 0)).length + 4 - 4)
      = valueOf data ((eyLabels data).getD i 0) := by
    unfold blobOf
    rw [Nat.add_sub_cancel, List.take_left]
  rw [hdrop4, htake4]
  have hcrc : fromBytesLE (crcBytes (valueOf data ((eyLabels data).getD i 0)))
      = crc32c (valueOf data ((eyLabels data).getD i 0)) := by
    unfold crcBytes
    rw [fromBytesLE_toBytesLE _ _ (by
      have h1 := crc32c_lt (valueOf data ((eyLabels data).getD i 0))
      have h2 : (256:Nat)^4 = 2^32 := by norm_num
      omega)]
  rw [hcrc]
  rw [if_neg (by simp)]

/-! ## Lemmas: key lookup through the Eytzinger search -/

theorem indexPairs_length_dict2buf (data : List (Nat × List Nat))
    (hN32 : data.length < 2^32)
    (hkeys : ∀ k ∈ data.map Prod.fst, k < 2^64)
    (hlen64 : (dict2buf data).length < 2^64) :
    (indexPairs (dict2buf data)).length = data.length := by
  rw [indexPairs_dict2buf data hN32 hkeys hlen64, List.length_zip, eyLabels_length,
    offsetsOf_length]
  simp

theorem vals_indexPairs (data : List (Nat × List Nat))
    (hN32 : data.length < 2^32)
    (hkeys : ∀ k ∈ data.map Prod.fst, k < 2^64)
    (hlen64 : (dict2buf data).length < 2^64) :
    ∀ s ∈ ino data.length 1,
      ((indexPairs (dict2buf data)).getD (s-1) (0,0)).1 = (eyLabels data).getD (s-1) 0 := by
  intro s hs
  have hb := ino_one_mem.mp hs
  rw [indexPairs_dict2buf data hN32 hkeys hlen64,
    zip_getD _ _ (s-1) (by rw [eyLabels_length]; omega) (by rw [offsetsOf_length]; omega)]

theorem pairwise_vals_indexPairs (data : List (Nat × List Nat))
    (hN32 : data.length < 2^32)
    (hkeys : ∀ k ∈ data.map Prod.fst, k < 2^64)
    (hlen64 : (dict2buf data).length < 2^64)
    (hnd : (data.map Prod.fst).Nodup) :
    List.Pairwise (· < ·) ((ino (indexPairs (dict2buf data)).length 1).map
      (fun s => ((indexPairs (dict2buf data)).getD (s-1) (0,0)).1)) := by
  rw [indexPairs_length_dict2buf data hN32 hkeys hlen64]
  have hcongr : (ino data.length 1).map
      (fun s => ((indexPairs (dict2buf data)).getD (s-1) (0,0)).1)
      = (ino data.length 1).map (fun s => (eyLabels data).getD (s-1) 0) :=
    List.map_congr_left (vals_indexPairs data hN32 hkeys hlen64)
  rw [hcongr, vals_ino_eyLabels]
  exact sortedLabels_pairwise data hnd

theorem find_index_position_found (data : List (Nat × List Nat))
    (hN32 : data.length < 2^32)
    (hkeys : ∀ k ∈ data.map Prod.fst, k < 2^64)
    (hlen64 : (dict2buf data).length < 2^64)
    (hnd : (data.map Prod.fst).Nodup)
    (k : Nat) (hk : k ∈ data.map Prod.fst) :
    ∃ i, i < data.length ∧ (eyLabels data).getD i 0 = k
      ∧ find_index_position (dict2buf data) k = some i := by
  have hkey : k ∈ eyLabels data := (eyLabels_perm data).mem_iff.mpr hk
  obtain ⟨i, hilt, hget⟩ := List.getElem_of_mem hkey
  have hiN : i < data.length := by rwa [eyLabels_length] at hilt
  have hgetD : (eyLabels data).getD i 0 = k := by
    rw [List.getD_eq_getElem?_getD, List.getElem?_eq_getElem hilt, hget]
    rfl
  have hElen := indexPairs_length_dict2buf data hN32 hkeys hlen64
  have hnzero : data.length ≠ 0 := by omega
  have hs0mem : i + 1 ∈ ino (indexPairs (dict2buf data)).length 1 := by
    rw [hElen]
    exact ino_one_mem.mpr ⟨by omega, by omega⟩
  have hv : ((indexPairs (dict2buf data)).getD (i+1-1) (0,0)).1 = k := by
    simp only [Nat.add_sub_cancel]
    have := vals_indexPairs data hN32 hkeys hlen64 (i+1) (by rw [← hElen]; exact hs0mem)
    simp only [Nat.add_sub_cancel] at this
    rw [this, hgetD]
  have hsearch := search_found (indexPairs (dict2buf data)) k
    (pairwise_vals_indexPairs data hN32 hkeys hlen64 hnd) (i+1) hs0mem hv
  refine ⟨i, hiN, hgetD, ?_⟩
  simp only [find_index_position]
  rw [if_neg (by rw [hElen]; exact hnzero), hsearch]
  have hcast : ((i+1 : Nat) : Int) - 1 = (i : Int) := by push_cast; ring
  rw [hcast, if_pos ⟨by omega, by rw [hElen]; exact_mod_cast hiN⟩]
  simp

theorem find_index_position_absent (data : List (Nat × List Nat))
    (hN32 : data.length < 2^32)
    (hkeys : ∀ k ∈ data.map Prod.fst, k < 2^64)
    (hlen64 : (dict2buf data).length < 2^64)
    (hnd : (data.map Prod.fst).Nodup)
    (k : Nat) (hk : k ∉ data.map Prod.fst) :
    find_index_position (dict2buf data) k = none := by
  have hElen := indexPairs_length_dict2buf data hN32 hkeys hlen64
  by_cases hzero : data.length = 0
  · simp only [find_index_position]
    rw [if_pos (by rw [hElen]; exact hzero)]
  · have habs : ∀ s ∈ ino (indexPairs (dict2buf data)).length 1,
        ((indexPairs (dict2buf data)).getD (s-1) (0,0)).1 ≠ k := by
      intro s hs
      rw [hElen] at hs
      rw [vals_indexPairs data hN32 hkeys hlen64 s hs]
      intro heq
      have hb := ino_one_mem.mp hs
      have hmem : (eyLabels data).getD (s-1) 0 ∈ eyLabels data :=
        getD_mem_of_lt (by rw [eyLabels_length]; omega) 0
      exact hk (heq ▸ (eyLabels_perm data).mem_iff.mp hmem)
    have hsearch := search_absent (indexPairs (dict2buf data)) k
      (pairwise_vals_indexPairs data hN32 hkeys hlen64 hnd) habs
    simp only [find_index_position]
    rw [if_neg (by rw [hElen]; exact hzero), hsearch]
    rw [if_neg (by intro h; omega)]

theorem getitem_dict2buf_ok (data : List (Nat × List Nat))
    (hN32 : data.length < 2^32)
    (hkeys : ∀ k ∈ data.map Prod.fst, k < 2^64)
    (hlen64 : (dict2buf data).length < 2^64)
    (hnd : (data.map Prod.fst).Nodup)
    (cc : Bool) (k : Nat) (v : List Nat) (hmem : (k, v) ∈ data) :
    getitem (dict2buf data) cc k = .ok v := by
  have hk : k ∈ data.map Prod.fst := by
    rw [List.mem_map]
    exact ⟨(k, v), hmem, rfl⟩
  obtain ⟨i, hiN, hgetD, hfind⟩ :=
    find_index_position_found data hN32 hkeys hlen64 hnd k hk
  unfold getitem
  rw [hfind]
  show getindex (dict2buf data) cc i = Except.ok v
  rw [getindex_dict2buf data hN32 hkeys hlen64 cc i hiN, hgetD]
  unfold valueOf
  rw [lookup_of_mem_nodup data k v hnd hmem]
  rfl

theorem getitem_dict2buf_absent (data : List (Nat × List Nat))
    (hN32 : data.length < 2^32)
    (hkeys : ∀ k ∈ data.map Prod.fst, k < 2^64)
    (hlen64 : (dict2buf data).length < 2^64)
    (hnd : (data.map Prod.fst).Nodup)
    (cc : Bool) (k : Nat) (hk : k ∉ data.map Prod.fst) :
    mb_contains (dict2buf data) k = false ∧ getitem (dict2buf data) cc k = .error .keyError := by
  have hfind := find_index_position_absent data hN32 hkeys hlen64 hnd k hk
  constructor
  · unfold mb_contains
    rw [hfind]
    rfl
  · unfold getitem
    rw [hfind]

/-! ## Lemmas: the offset invariant of written buffers -/

theorem offsetsAux_pairwise (lens : List Nat) : ∀ s, (∀ l ∈ lens, 0 < l) →
    List.Pairwise (· < ·) (offsetsAux s lens)
    ∧ ∀ o ∈ offsetsAux s lens, s ≤ o ∧ o ≤ s + lens.sum := by
  induction lens with
  | nil => intro s _; exact ⟨List.Pairwise.nil, by simp [offsetsAux]⟩
  | cons l rest ih =>
    intro s hpos
    have hl : 0 < l := hpos l (List.mem_cons_self _ _)
    obtain ⟨ihp, ihb⟩ := ih (s + l) (fun x hx => hpos x (List.mem_cons_of_mem _ hx))
    rw [show offsetsAux s (l :: rest) = s :: offsetsAux (s + l) rest from rfl]
    constructor
    · rw [List.pairwise_cons]
      refine ⟨fun o ho => ?_, ihp⟩
      have := (ihb o ho).1
      omega
    · intro o ho
      rcases List.mem_cons.mp ho with h | h
      · subst h
        simp only [List.sum_cons]
        omega
      · have := ihb o h
        simp only [List.sum_cons]
        omega

theorem blobLens_pos (data : List (Nat × List Nat)) : ∀ l ∈ blobLens data, 0 < l := by
  intro l hl
  unfold blobLens at hl
  obtain ⟨k, _, hk⟩ := List.mem_map.mp hl
  rw [← hk, blobOf_length]
  omega

theorem offsetsOf_invariant (data : List (Nat × List Nat)) (h : 0 < data.length) :
    List.Pairwise (· < ·) (offsetsOf data)
    ∧ ∀ o ∈ offsetsOf data, 16 + 16 * data.length ≤ o ∧ o ≤ (dict2buf data).length := by
  obtain ⟨hp, hb⟩ := offsetsAux_pairwise (blobLens data) (16 + 16 * data.length)
    (blobLens_pos data)
  refine ⟨hp, fun o ho => ?_⟩
  have := hb o ho
  rw [dict2buf_length data (by omega)]
  omega

/-! ## Lemmas: characterization of validate -/

theorem validate_ok_iff (buf : List Nat) :
    validate buf = .ok true ↔
      ¬ (0 < numEntries buf ∧ buf.length < 16 + 16 * numEntries buf)
      ∧ buf.take 7 = MAGIC
      ∧ (format_version buf = 0 ∨ format_version buf = 1)
      ∧ normalize_encoding (pySlice buf 8 12) ∈ COMPRESSION_TYPES
      ∧ (0 < numEntries buf →
          (¬ (validateLens buf).any (fun l => decide (l < 0))
            ∧ validateTotal buf = (buf.length : Int) - 16 - 16 * numEntries buf))
      ∧ (numEntries buf = 0 → buf.length = 16) := by
  unfold validate
  by_cases h1 : 0 < numEntries buf ∧ buf.length < 16 + 16 * numEntries buf
  · rw [if_pos h1]
    simp [h1]
  · rw [if_neg h1]
    by_cases h2 : buf.take 7 = MAGIC
    · rw [if_neg (not_not_intro h2)]
      by_cases h3 : format_version buf = 0 ∨ format_version buf = 1
      · rw [if_neg (not_not_intro h3)]
        by_cases h4 : normalize_encoding (pySlice buf 8 12) ∈ COMPRESSION_TYPES
        · rw [if_neg (not_not_intro h4)]
          by_cases h5 : 0 < numEntries buf
          · rw [if_pos h5]
            by_cases h6 : (validateLens buf).any (fun l => decide (l < 0))
            · rw [if_pos h6]
              simp [h1, h2, h3, h4, h5, h6]
            · rw [if_neg h6]
              by_cases h7 : validateTotal buf = (buf.length : Int) - 16 - 16 * numEntries buf
              · rw [if_neg (not_not_intro h7)]
                constructor
                · intro _
                  exact ⟨h1, h2, h3, h4, fun _ => ⟨h6, h7⟩, fun hz => by omega⟩
                · intro _
                  rfl
              · rw [if_pos h7]
                constructor
                · intro h
                  cases h
                · rintro ⟨_, _, _, _, hln, _⟩
                  exact absurd (hln h5).2 h7
          · rw [if_neg h5]
            by_cases h8 : buf.length = 16
            · rw [if_neg (not_not_intro h8)]
              constructor
              · intro _
                exact ⟨h1, h2, h3, h4, fun hpos => absurd hpos h5, fun _ => h8⟩
              · intro _
                rfl
            · rw [if_pos h8]
              constructor
              · intro h
                cases h
              · rintro ⟨_, _, _, _, _, hz⟩
                exact absurd (hz (by omega)) h8
        · rw [if_pos h4]
          constructor
          · intro h
            cases h
          · rintro ⟨_, _, _, hc, _, _⟩
            exact absurd hc h4
      · rw [if_pos h3]
        constructor
        · intro h
          cases h
        · rintro ⟨_, _, hc, _, _, _⟩
          exact absurd hc h3
    · rw [if_pos h2]
      constructor
      · intro h
        cases h
      · rintro ⟨_, hc, _, _, _, _⟩
        exact absurd hc h2

/-! ## Lemmas: corrupting one data-region byte -/

theorem take_set (l : List Nat) (p b c : Nat) :
    (l.set p b).take c = (l.take c).set p b := by
  apply List.ext_getElem?
  intro j
  simp only [List.getElem?_take, List.getElem?_set, List.length_take]
  by_cases hpj : p = j
  · subst hpj
    by_cases h1 : p < c <;> by_cases h2 : p < l.length <;>
      simp [h1, h2, Nat.lt_min]
  · simp [hpj]

theorem pySlice_set_high (buf : List Nat) (p b a c : Nat) (hp : c ≤ p) :
    pySlice (buf.set p b) a c = pySlice buf a c := by
  unfold pySlice
  rw [take_set, List.set_eq_of_length_le (by rw [List.length_take]; omega)]

theorem numEntries_set (buf : List Nat) (p b : Nat) (hp : 16 ≤ p) :
    numEntries (buf.set p b) = numEntries buf := by
  unfold numEntries
  rw [take_set, List.set_eq_of_length_le (by rw [List.length_take]; omega)]

theorem format_version_set (buf : List Nat) (p b : Nat) (hp : 8 ≤ p) :
    format_version (buf.set p b) = format_version buf := by
  unfold format_version
  rw [List.getD_eq_getElem?_getD, List.getD_eq_getElem?_getD,
    List.getElem?_set_ne (by omega : p ≠ 7)]

theorem indexPairs_set (buf : List Nat) (p b : Nat)
    (hp : 16 + 16 * numEntries buf ≤ p) :
    indexPairs (buf.set p b) = indexPairs buf := by
  unfold indexPairs
  rw [numEntries_set buf p b (by omega)]
  apply List.map_congr_left
  intro i hi
  rw [List.mem_range] at hi
  rw [pySlice_set_high _ _ _ _ _ (by omega), pySlice_set_high _ _ _ _ _ (by omega)]

theorem pySlice_set_mid (l : List Nat) (a q c b : Nat) :
    pySlice (l.set (a+q) b) a c = (pySlice l a c).set q b := by
  unfold pySlice
  rw [take_set, List.drop_set, if_neg (by omega), Nat.add_sub_cancel_left]

theorem drop_set_mid (l : List Nat) (a q b : Nat) :
    (l.set (a+q) b).drop a = (l.drop a).set q b := by
  rw [List.drop_set, if_neg (by omega), Nat.add_sub_cancel_left]

theorem set_ne_of_ne (l : List Nat) (q b : Nat) (hq : q < l.length) (hb : b ≠ l.getD q 0) :
    l.set q b ≠ l := by
  intro heq
  have h1 : (l.set q b)[q]? = some b := List.getElem?_set_self hq
  rw [heq, List.getElem?_eq_getElem hq] at h1
  apply hb
  rw [List.getD_eq_getElem?_getD, List.getElem?_eq_getElem hq]
  exact (Option.some_injective _ h1).symm

theorem lookup_mem (data : List (Nat × List Nat)) (k : Nat) (v : List Nat)
    (h : data.lookup k = some v) : (k, v) ∈ data := by
  induction data with
  | nil => cases h
  | cons p rest ih =>
    by_cases hk : k = p.1
    · have hbeq : (k == p.1) = true := beq_iff_eq.mpr hk
      simp only [List.lookup, hbeq] at h
      have : v = p.2 := (Option.some_injective _ h).symm
      rw [this, hk]
      exact List.mem_cons_self _ _
    · have hbeq : (k == p.1) = false := beq_eq_false_iff_ne.mpr hk
      simp only [List.lookup, hbeq] at h
      exact List.mem_cons_of_mem _ (ih h)

theorem valueOf_mem (data : List (Nat × List Nat)) (hnd : (data.map Prod.fst).Nodup)
    (k : Nat) (hk : k ∈ data.map Prod.fst) : (k, valueOf data k) ∈ data := by
  obtain ⟨p, hp, hfst⟩ := List.mem_map.mp hk
  have hpair : (k, p.2) ∈ data := by
    have heq : (k, p.2) = p := by
      rw [← hfst]
    rw [heq]
    exact hp
  have hlk : data.lookup k = some p.2 := lookup_of_mem_nodup data k p.2 hnd hpair
  unfold valueOf
  rw [hlk]
  exact hpair

theorem crc_byte_flip_detected (data : List (Nat × List Nat))
    (hN32 : data.length < 2^32)
    (hkeys : ∀ k ∈ data.map Prod.fst, k < 2^64)
    (hlen64 : (dict2buf data).length < 2^64)
    (hnd : (data.map Prod.fst).Nodup)
    (hvals : ∀ p ∈ data, ∀ b ∈ p.2, b < 256)
    (i : Nat) (hi : i < data.length)
    (q : Nat) (hq : q < (blobOf (valueOf data ((eyLabels data).getD i 0))).length)
    (b' : Nat) (hb' : b' < 256)
    (hne : b' ≠ (blobOf (valueOf data ((eyLabels data).getD i 0))).getD q 0) :
    getitem ((dict2buf data).set ((offsetsOf data).getD i 0 + q) b') true
      ((eyLabels data).getD i 0) = .error .validationError := by
  have hzero : data.length ≠ 0 := by omega
  have hidx := indexPairs_dict2buf data hN32 hkeys hlen64
  have hidxlen := indexPairs_length_dict2buf data hN32 hkeys hlen64
  have hN := numEntries_dict2buf data hN32
  have hoffmem : (offsetsOf data).getD i 0 ∈ offsetsOf data :=
    getD_mem_of_lt (by rw [offsetsOf_length]; omega) 0
  have hoffge : 16 + 16 * data.length ≤ (offsetsOf data).getD i 0 :=
    ((offsetsOf_invariant data (by omega)).2 _ hoffmem).1
  have hp16 : 16 + 16 * numEntries (dict2buf data)
      ≤ (offsetsOf data).getD i 0 + q := by
    rw [hN]
    omega
  have hidxset : indexPairs ((dict2buf data).set ((offsetsOf data).getD i 0 + q) b')
      = indexPairs (dict2buf data) := indexPairs_set _ _ _ hp16
  have hfverset : format_version ((dict2buf data).set ((offsetsOf data).getD i 0 + q) b')
      = 1 := by
    rw [format_version_set _ _ _ (by omega), format_version_dict2buf]
  have hkmem : (eyLabels data).getD i 0 ∈ data.map Prod.fst := by
    have hmem : (eyLabels data).getD i 0 ∈ eyLabels data :=
      getD_mem_of_lt (by rw [eyLabels_length]; omega) 0
    exact (eyLabels_perm data).mem_iff.mp hmem
  obtain ⟨i₀, hi₀N, hgetD₀, hfind⟩ :=
    find_index_position_found data hN32 hkeys hlen64 hnd _ hkmem
  have heynodup : (eyLabels data).Nodup := (eyLabels_perm data).nodup_iff.mpr hnd
  have hii : i₀ = i := by
    have hlt₀ : i₀ < (eyLabels data).length := by rw [eyLabels_length]; omega
    have hlt : i < (eyLabels data).length := by rw [eyLabels_length]; omega
    have hgg : (eyLabels data)[i₀] = (eyLabels data)[i] := by
      have h1 : (eyLabels data).getD i₀ 0 = (eyLabels data)[i₀] := by
        rw [List.getD_eq_getElem?_getD, List.getElem?_eq_getElem hlt₀]
        rfl
      have h2 : (eyLabels data).getD i 0 = (eyLabels data)[i] := by
        rw [List.getD_eq_getElem?_getD, List.getElem?_eq_getElem hlt]
        rfl
      rw [← h1, ← h2, hgetD₀]
    exact (heynodup.getElem_inj_iff).mp hgg
  subst hii
  have hfind' : find_index_position
      ((dict2buf data).set ((offsetsOf data).getD i₀ 0 + q) b')
      ((eyLabels data).getD i₀ 0) = some i₀ := by
    simp only [find_index_position] at hfind ⊢
    rw [hidxset]
    exact hfind
  unfold getitem
  rw [hfind']
  show getindex ((dict2buf data).set ((offsetsOf data).getD i₀ 0 + q) b') true i₀
    = .error .validationError
  have hoffidx : ((indexPairs (dict2buf data)).getD i₀ (0,0)).2
      = (offsetsOf data).getD i₀ 0 := by
    rw [hidx, zip_getD _ _ i₀ (by rw [eyLabels_length]; omega) (by rw [offsetsOf_length]; omega)]
  have hslice := dict2buf_blob_slice data hN32 hkeys hlen64 i₀ hi
  have hvalue : (if i₀ < data.length - 1 then
        pySlice ((dict2buf data).set ((offsetsOf data).getD i₀ 0 + q) b')
          ((indexPairs (dict2buf data)).getD i₀ (0,0)).2
          ((indexPairs (dict2buf data)).getD (i₀+1) (0,0)).2
      else ((dict2buf data).set ((offsetsOf data).getD i₀ 0 + q) b').drop
          ((indexPairs (dict2buf data)).getD i₀ (0,0)).2)
      = (blobOf (valueOf data ((eyLabels data).getD i₀ 0))).set q b' := by
    by_cases hlast : i₀ < data.length - 1
    · rw [if_pos hlast]
      rw [if_pos hlast] at hslice
      rw [hoffidx] at hslice ⊢
      rw [pySlice_set_mid, hslice]
    · rw [if_neg hlast]
      rw [if_neg hlast] at hslice
      rw [hoffidx] at hslice ⊢
      rw [drop_set_mid, hslice]
  unfold getindex
  rw [hidxset, hfverset]
  simp only [hidxlen, if_true]
  rw [hvalue, List.length_set, blobOf_length]
  have hvlt : ∀ b ∈ valueOf data ((eyLabels data).getD i₀ 0), b < 256 := by
    intro b hb
    exact hvals _ (valueOf_mem data hnd _ hkmem) b hb
  by_cases hq1 : q < (valueOf data ((eyLabels data).getD i₀ 0)).length
  · have hsetapp : (blobOf (valueOf data ((eyLabels data).getD i₀ 0))).set q b'
        = ((valueOf data ((eyLabels data).getD i₀ 0)).set q b')
          ++ crcBytes (valueOf data ((eyLabels data).getD i₀ 0)) := by
      unfold blobOf
      rw [List.set_append, if_pos hq1]
    rw [hsetapp, Nat.add_sub_cancel]
    have hdrops : (((valueOf data ((eyLabels data).getD i₀ 0)).set q b')
        ++ crcBytes (valueOf data ((eyLabels data).getD i₀ 0))).drop
          (valueOf data ((eyLabels data).getD i₀ 0)).length
        = crcBytes (valueOf data ((eyLabels data).getD i₀ 0)) := by
      rw [show (valueOf data ((eyLabels data).getD i₀ 0)).length
        = ((valueOf data ((eyLabels data).getD i₀ 0)).set q b').length by
          rw [List.length_set], List.drop_left]
    have htakes : (((valueOf data ((eyLabels data).getD i₀ 0)).set q b')
        ++ crcBytes (valueOf data ((eyLabels data).getD i₀ 0))).take
          (valueOf data ((eyLabels data).getD i₀ 0)).length
        = (valueOf data ((eyLabels data).getD i₀ 0)).set q b' := by
      rw [show (valueOf data ((eyLabels data).getD i₀ 0)).length
        = ((valueOf data ((eyLabels data).getD i₀ 0)).set q b').length by
          rw [List.length_set], List.take_left]
    rw [hdrops, htakes]
    have hcrcval : fromBytesLE (crcBytes (valueOf data ((eyLabels data).getD i₀ 0)))
        = crc32c (valueOf data ((eyLabels data).getD i₀ 0)) := by
      unfold crcBytes
      rw [fromBytesLE_toBytesLE _ _ (by
        have h1 := crc32c_lt (valueOf data ((eyLabels data).getD i₀ 0))
        have h2 : (256:Nat)^4 = 2^32 := by norm_num
        omega)]
    rw [hcrcval]
    have hbody : (valueOf data ((eyLabels data).getD i₀ 0)).set q b'
        = (valueOf data ((eyLabels data).getD i₀ 0)).take q
          ++ b' :: (valueOf data ((eyLabels data).getD i₀ 0)).drop (q+1) := by
      rw [List.set_eq_take_append_cons_drop, if_pos hq1]
    have horig : valueOf data ((eyLabels data).getD i₀ 0)
        = (valueOf data ((eyLabels data).getD i₀ 0)).take q
          ++ ((valueOf data ((eyLabels data).getD i₀ 0)).getD q 0)
            :: (valueOf data ((eyLabels data).getD i₀ 0)).drop (q+1) := by
      have h1 : (valueOf data ((eyLabels data).getD i₀ 0)).getD q 0
          = (valueOf data ((eyLabels data).getD i₀ 0))[q] := by
        rw [List.getD_eq_getElem?_getD, List.getElem?_eq_getElem hq1]
        rfl
      rw [h1]
      conv_lhs => rw [← List.take_append_drop q (valueOf data ((eyLabels data).getD i₀ 0))]
      rw [List.drop_eq_getElem_cons hq1]
    have hxne : b' ≠ (valueOf data ((eyLabels data).getD i₀ 0)).getD q 0 := by
      intro heq
      apply hne
      rw [heq]
      unfold blobOf
      rw [List.getD_append _ _ _ _ hq1]
    have hflip : crc32c ((valueOf data ((eyLabels data).getD i₀ 0)).set q b')
        ≠ crc32c (valueOf data ((eyLabels data).getD i₀ 0)) := by
      rw [hbody]
      conv_rhs => rw [horig]
      exact crc32c_flip _ _ b' _ hb' (hvlt _ (getD_mem_of_lt hq1 0)) hxne
    rw [if_pos ⟨trivial, hflip⟩]
  · have hqge : (valueOf data ((eyLabels data).getD i₀ 0)).length ≤ q := by omega
    have hsetapp : (blobOf (valueOf data ((eyLabels data).getD i₀ 0))).set q b'
        = valueOf data ((eyLabels data).getD i₀ 0)
          ++ (crcBytes (valueOf data ((eyLabels data).getD i₀ 0))).set
            (q - (valueOf data ((eyLabels data).getD i₀ 0)).length) b' := by
      unfold blobOf
      rw [List.set_append, if_neg (by omega)]
    rw [hsetapp, Nat.add_sub_cancel, List.drop_left, List.take_left]
    have hq4 : q - (valueOf data ((eyLabels data).getD i₀ 0)).length < 4 := by
      rw [blobOf_length] at hq
      omega
    have hcrclen : (crcBytes (valueOf data ((eyLabels data).getD i₀ 0))).length = 4 := by
      unfold crcBytes
      rw [length_toBytesLE]
    have hcrcval : fromBytesLE (crcBytes (valueOf data ((eyLabels data).getD i₀ 0)))
        = crc32c (valueOf data ((eyLabels data).getD i₀ 0)) := by
      unfold crcBytes
      rw [fromBytesLE_toBytesLE _ _ (by
        have h1 := crc32c_lt (valueOf data ((eyLabels data).getD i₀ 0))
        have h2 : (256:Nat)^4 = 2^32 := by norm_num
        omega)]
    have htrailne : b' ≠ (crcBytes (valueOf data ((eyLabels data).getD i₀ 0))).getD
        (q - (valueOf data ((eyLabels data).getD i₀ 0)).length) 0 := by
      intro heq
      apply hne
      rw [heq]
      unfold blobOf
      rw [List.getD_append_right _ _ _ _ hqge]
    have hlistne : (crcBytes (valueOf data ((eyLabels data).getD i₀ 0))).set
        (q - (valueOf data ((eyLabels data).getD i₀ 0)).length) b'
        ≠ crcBytes (valueOf data ((eyLabels data).getD i₀ 0)) :=
      set_ne_of_ne _ _ _ (by omega) htrailne
    have hstoredne : fromBytesLE ((crcBytes (valueOf data ((eyLabels data).getD i₀ 0))).set
        (q - (valueOf data ((eyLabels data).getD i₀ 0)).length) b')
        ≠ crc32c (valueOf data ((eyLabels data).getD i₀ 0)) := by
      rw [← hcrcval]
      apply fromBytesLE_inj
      · intro b hb
        rcases List.mem_or_eq_of_mem_set hb with h | h
        · exact toBytesLE_lt _ _ b h
        · rw [h]
          exact hb'
      · exact toBytesLE_lt _ _
      · rw [List.length_set]
      · exact hlistne
    rw [if_pos ⟨trivial, fun hcontra => hstoredne hcontra.symm⟩]

/-! ## Claim theorems -/

/-- C1.  Round-trip: for every mapping from distinct u64 keys to byte values,
building a MapBuffer with `dict2buf` and reading the emitted bytes back
yields, for every stored key, exactly the stored value (`__getitem__`
returns it, CRC check included), and for every key not in the mapping the
membership test is false and `__getitem__` raises `KeyError`.  The size
bounds keep `N` within the header's u32 field and the offsets within
their u64 slots, exactly as the format requires. -/
theorem claim_roundtrip (data : List (Nat × List Nat))
    (hN32 : data.length < 2^32)
    (hnd : (data.map Prod.fst).Nodup)
    (hkeys : ∀ k ∈ data.map Prod.fst, k < 2^64)
    (hlen64 : (dict2buf data).length < 2^64) :
    (∀ p ∈ data, getitem (dict2buf data) true p.1 = .ok p.2)
    ∧ (∀ k : Nat, k ∉ data.map Prod.fst →
        mb_contains (dict2buf data) k = false
        ∧ getitem (dict2buf data) true k = .error .keyError) := by
  constructor
  · intro p hp
    exact getitem_dict2buf_ok data hN32 hkeys hlen64 hnd true p.1 p.2 hp
  · intro k hk
    exact getitem_dict2buf_absent data hN32 hkeys hlen64 hnd true k hk

/-- Witness for C1 on the concrete mapping of the spec's scenario 2. -/
theorem claim_roundtrip_witness :
    getitem (dict2buf [(1, [104,101,108,108,111]), (2, [119,111,114,108,100])]) true 1
      = .ok [104,101,108,108,111]
    ∧ mb_contains (dict2buf [(1, [104,101,108,108,111]), (2, [119,111,114,108,100])]) 3
      = false := by
  have h := claim_roundtrip [(1, [104,101,108,108,111]), (2, [119,111,114,108,100])]
    (by decide) (by decide) (by decide) (by decide)
  exact ⟨h.1 (1, [104,101,108,108,111]) (by decide), (h.2 3 (by decide)).1⟩

/-- C2.  Eytzinger invariant: for every ascending-sorted list of distinct
keys laid out by the in-order heap walk of `eytzinger_sort`, the canonical
search of spec section 4.3 (`eytzinger_binary_search`) over the resulting
index of `(key, offset)` pairs returns the slot of every stored key and
returns not-found (`-1`) for every key not in the list. -/
theorem claim_eytzinger_search (S : List Nat) (offs : List Nat)
    (hsorted : List.Pairwise (· < ·) S)
    (hlen : offs.length = S.length) :
    (∀ i, i < S.length →
      eytzinger_binary_search
        ((eytzinger_sort 0 S (List.replicate S.length 0) 0 1).2.getD i 0)
        ((eytzinger_sort 0 S (List.replicate S.length 0) 0 1).2.zip offs) = (i : Int))
    ∧ (∀ T, T ∉ S →
      eytzinger_binary_search T
        ((eytzinger_sort 0 S (List.replicate S.length 0) 0 1).2.zip offs) = -1) := by
  have hkeyslen : (eytzinger_sort 0 S (List.replicate S.length 0) 0 1).2.length
      = S.length := by
    rw [(eytzinger_sort_spec 0 S (List.replicate S.length 0) (by simp)).2.1]
    simp
  have hElen : ((eytzinger_sort 0 S (List.replicate S.length 0) 0 1).2.zip offs).length
      = S.length := by
    rw [List.length_zip, hkeyslen, hlen]
    simp
  have hvalE : ∀ s ∈ ino S.length 1,
      (((eytzinger_sort 0 S (List.replicate S.length 0) 0 1).2.zip offs).getD (s-1) (0,0)).1
        = (eytzinger_sort 0 S (List.replicate S.length 0) 0 1).2.getD (s-1) 0 := by
    intro s hs
    have hb := ino_one_mem.mp hs
    rw [zip_getD _ _ (s-1) (by rw [hkeyslen]; omega) (by rw [hlen]; omega)]
  have hpw : List.Pairwise (· < ·)
      ((ino ((eytzinger_sort 0 S (List.replicate S.length 0) 0 1).2.zip offs).length 1).map
        (fun s => (((eytzinger_sort 0 S (List.replicate S.length 0) 0 1).2.zip
            offs).getD (s-1) (0,0)).1)) := by
    rw [hElen, List.map_congr_left hvalE, vals_ino_eq]
    exact hsorted
  constructor
  · intro i hi
    have hs0 : i + 1 ∈ ino ((eytzinger_sort 0 S
        (List.replicate S.length 0) 0 1).2.zip offs).length 1 := by
      rw [hElen]
      exact ino_one_mem.mpr ⟨by omega, by omega⟩
    have hv : (((eytzinger_sort 0 S (List.replicate S.length 0) 0 1).2.zip offs).getD
        (i+1-1) (0,0)).1
        = (eytzinger_sort 0 S (List.replicate S.length 0) 0 1).2.getD i 0 := by
      have := hvalE (i+1) (by rw [← hElen]; exact hs0)
      simpa using this
    have := search_found _ _ hpw (i+1) hs0 hv
    rw [this]
    push_cast
    ring
  · intro T hT
    apply search_absent _ _ hpw
    intro s hs
    rw [hElen] at hs
    rw [hvalE s hs]
    intro heq
    apply hT
    have hb := ino_one_mem.mp hs
    have hmem : (eytzinger_sort 0 S (List.replicate S.length 0) 0 1).2.getD (s-1) 0
        ∈ (eytzinger_sort 0 S (List.replicate S.length 0) 0 1).2 :=
      getD_mem_of_lt (by rw [hkeyslen]; omega) 0
    have hperm := (eytzinger_sort_perm 0 S (List.replicate S.length 0) (by simp)).2
    exact heq ▸ hperm.mem_iff.mp hmem

/-- Witness for C2 on the sorted key list `[10, 20, 30]`. -/
theorem claim_eytzinger_search_witness :
    eytzinger_binary_search
      ((eytzinger_sort 0 [10,20,30] (List.replicate 3 0) 0 1).2.getD 0 0)
      ((eytzinger_sort 0 [10,20,30] (List.replicate 3 0) 0 1).2.zip [0,0,0]) = 0
    ∧ eytzinger_binary_search 99
      ((eytzinger_sort 0 [10,20,30] (List.replicate 3 0) 0 1).2.zip [0,0,0]) = -1 := by
  have h := claim_eytzinger_search [10,20,30] [0,0,0] (by decide) (by decide)
  exact ⟨h.1 0 (by decide), h.2 99 (by decide)⟩

/-- C3.  Writer layout: for every non-empty mapping, the emitted buffer is
the 16-byte header, then the `(key, offset)` pairs in Eytzinger order,
then the value blobs concatenated in Eytzinger order, with
`offset[0] = 16 + 16N` and
`offset[i] = offset[i-1] + len(blob of the key at Eytzinger slot i-1)`. -/
theorem claim_writer_layout (data : List (Nat × List Nat)) (h : 0 < data.length) :
    dict2buf data = headerOf16 data
        ++ (((eyLabels data).zip (offsetsOf data)).map pairBytes).flatten
        ++ ((eyLabels data).map (fun k => blobOf (valueOf data k))).flatten
    ∧ (offsetsOf data).getD 0 0 = 16 + 16 * data.length
    ∧ ∀ i, 1 ≤ i → i < data.length →
        (offsetsOf data).getD i 0
          = (offsetsOf data).getD (i-1) 0
            + (blobOf (valueOf data ((eyLabels data).getD (i-1) 0))).length := by
  refine ⟨?_, ?_, ?_⟩
  · unfold dict2buf
    rw [if_neg (by omega)]
  · unfold offsetsOf
    rw [offsetsAux_getD _ _ _ (by rw [blobLens_length]; omega)]
    simp
  · intro i h1 hiN
    unfold offsetsOf
    rw [offsetsAux_getD _ _ _ (by rw [blobLens_length]; omega),
      offsetsAux_getD _ _ _ (by rw [blobLens_length]; omega)]
    have hstep : ((blobLens data).take i).sum
        = ((blobLens data).take (i-1)).sum + (blobLens data).getD (i-1) 0 := by
      have hlt : i - 1 < (blobLens data).length := by rw [blobLens_length]; omega
      have := List.sum_take_succ (blobLens data) (i-1) hlt
      rw [show i - 1 + 1 = i by omega] at this
      rw [this]
      congr 1
      rw [List.getD_eq_getElem?_getD, List.getElem?_eq_getElem hlt]
      rfl
    have hlens : (blobLens data).getD (i-1) 0
        = (blobOf (valueOf data ((eyLabels data).getD (i-1) 0))).length := by
      unfold blobLens
      exact getD_map_of_lt _ _ (by rw [eyLabels_length]; omega) 0 0
    rw [hstep, hlens]
    omega

/-- Witness for C3 on a concrete two-entry mapping. -/
theorem claim_writer_layout_witness :
    (offsetsOf [(1, [104,101]), (2, [119])]).getD 0 0 = 48
    ∧ (offsetsOf [(1, [104,101]), (2, [119])]).getD 1 0
      = (offsetsOf [(1, [104,101]), (2, [119])]).getD 0 0
        + (blobOf (valueOf [(1, [104,101]), (2, [119])]
            ((eyLabels [(1, [104,101]), (2, [119])]).getD 0 0))).length := by
  have h := claim_writer_layout [(1, [104,101]), (2, [119])] (by decide)
  exact ⟨h.2.1, h.2.2 1 (by decide) (by decide)⟩

/-- C4 counterexample: for the mapping `{1 ↦ "a", 2 ↦ "bc", 3 ↦ "d"}` the
index offsets of the emitted buffer, rearranged into ascending
original-key order, are `[70, 64, 75]`, which is not strictly
increasing — refuting the claim that offsets increase in
original-key-sorted order. -/
theorem claim_offsets_keysorted_counterexample :
    ¬ List.Pairwise (· < ·)
      (keySortedOffsets (dict2buf [(1,[97]), (2,[98,99]), (3,[100])])) := by decide

/-- C4 (amended).  Offset-ordering invariant as the code actually
maintains it: in every buffer the writer produces, the `N` index offsets
lie in `[16+16N, buffer_length]` and are strictly increasing in
Eytzinger slot order (the order of the index itself), not in
original-key-sorted order. -/
theorem claim_offsets_eytzinger_order (data : List (Nat × List Nat))
    (hN32 : data.length < 2^32)
    (hkeys : ∀ k ∈ data.map Prod.fst, k < 2^64)
    (hlen64 : (dict2buf data).length < 2^64)
    (h : 0 < data.length) :
    List.Pairwise (· < ·) ((indexPairs (dict2buf data)).map Prod.snd)
    ∧ ∀ o ∈ (indexPairs (dict2buf data)).map Prod.snd,
        16 + 16 * data.length ≤ o ∧ o ≤ (dict2buf data).length := by
  have hmap : (indexPairs (dict2buf data)).map Prod.snd = offsetsOf data := by
    rw [indexPairs_dict2buf data hN32 hkeys hlen64]
    exact List.map_snd_zip _ _ (by rw [eyLabels_length, offsetsOf_length])
  rw [hmap]
  exact offsetsOf_invariant data h

/-- Witness for the amended C4 on a concrete three-entry mapping. -/
theorem claim_offsets_eytzinger_order_witness :
    List.Pairwise (· < ·)
      ((indexPairs (dict2buf [(1,[97]), (2,[98,99]), (3,[100])])).map Prod.snd) :=
  (claim_offsets_eytzinger_order [(1,[97]), (2,[98,99]), (3,[100])]
    (by decide) (by decide) (by decide) (by decide)).1

/-- C5.  The source of `MapBuffer.get` evaluates `kwargs.get("default")`
when the key is absent and no positional default was given; `dict.get`
returns `None` rather than raising, so `get` returns Python `None` and
the `raise KeyError` at line 212 is dead code.  Evaluated on the empty
map: `get(0)` returns `None`, contradicting the claim that it raises
`KeyError`. -/
theorem claim_get_returns_none :
    mb_get (dict2buf []) true 0 [] none = .ok none := by decide

/-- C6.  `setindex` on a format-version-1 buffer writes the new data
without a CRC-32C trailer (the version test at line 185 is inverted):
on the buffer of `{1 ↦ "he"}`, overwriting with `"wo"` passes the
length check but splices in only the 2 raw bytes, shrinking the buffer
by 4, and the subsequent checked lookup of key 1 raises
`ValidationError` instead of returning the new value. -/
theorem claim_setindex_version1_drops_crc :
    setindex (dict2buf [(1, [104,101])]) 0 [119,111]
      = .ok ((dict2buf [(1, [104,101])]).take 32 ++ [119,111])
    ∧ getitem ((dict2buf [(1, [104,101])]).take 32 ++ [119,111]) true 1
      = .error .validationError := by decide

/-- C7.  Length-mismatch atomicity: whenever the new encoded blob
(compressed value plus, for format version 1, the 4-byte CRC trailer)
differs in length from the existing slot, `setindex` fails with the
length-mismatch `ValueError`; the check precedes the single slice
assignment in the source (line 179 versus 186/189), so the buffer is
untouched by the failed call, which the embedding renders by returning
an error without a new buffer. -/
theorem claim_length_mismatch (buf : List Nat) (i : Nat) (d : List Nat)
    (h : d.length + (if format_version buf = 1 then 4 else 0) ≠ setindexExisting buf i) :
    setindex buf i d = .error .lengthMismatch := by
  unfold setindex
  rw [if_pos h]

/-- Witness for C7: overwriting a 2-byte value with a 3-byte one. -/
theorem claim_length_mismatch_witness :
    ([119,111,114] : List Nat).length
        + (if format_version (dict2buf [(1, [104,101])]) = 1 then 4 else 0)
      ≠ setindexExisting (dict2buf [(1, [104,101])]) 0
    ∧ setindex (dict2buf [(1, [104,101])]) 0 [119,111,114] = .error .lengthMismatch :=
  ⟨by decide, claim_length_mismatch _ 0 _ (by decide)⟩

/-- C8.  CRC detection: for every writer-produced format-version-1
buffer, changing any single byte of any value's blob in the data region
(body or CRC trailer) to a different byte value makes the checked lookup
of the affected key raise `ValidationError`.  The slot `i` ranges over
Eytzinger slots, `q` over the bytes of that slot's blob. -/
theorem claim_crc_detection (data : List (Nat × List Nat))
    (hN32 : data.length < 2^32)
    (hkeys : ∀ k ∈ data.map Prod.fst, k < 2^64)
    (hlen64 : (dict2buf data).length < 2^64)
    (hnd : (data.map Prod.fst).Nodup)
    (hvals : ∀ p ∈ data, ∀ b ∈ p.2, b < 256)
    (i : Nat) (hi : i < data.length)
    (q : Nat) (hq : q < (blobOf (valueOf data ((eyLabels data).getD i 0))).length)
    (b' : Nat) (hb' : b' < 256)
    (hne : b' ≠ (blobOf (valueOf data ((eyLabels data).getD i 0))).getD q 0) :
    getitem ((dict2buf data).set ((offsetsOf data).getD i 0 + q) b') true
      ((eyLabels data).getD i 0) = .error .validationError :=
  crc_byte_flip_detected data hN32 hkeys hlen64 hnd hvals i hi q hq b' hb' hne

/-- Witness for C8: flipping the first byte of the `"hello"` blob in the
buffer of `{1 ↦ "hello", 2 ↦ "world"}` makes `get(1)` raise
`ValidationError` (the spec's scenario 2). -/
theorem claim_crc_detection_witness :
    getitem ((dict2buf [(1, [104,101,108,108,111]), (2, [119,111,114,108,100])]).set
        ((offsetsOf [(1, [104,101,108,108,111]), (2, [119,111,114,108,100])]).getD 1 0 + 0) 72)
      true ((eyLabels [(1, [104,101,108,108,111]), (2, [119,111,114,108,100])]).getD 1 0)
      = .error .validationError :=
  claim_crc_detection [(1, [104,101,108,108,111]), (2, [119,111,114,108,100])]
    (by decide) (by decide) (by decide) (by decide) (by decide)
    1 (by decide) 0 (by decide) 72 (by decide) (by decide)

/-- C9 counterexample: a handcrafted buffer with two identical keys `5`
passes `validate()` (all checks the code performs succeed), yet the
section-3 invariant that keys be pairwise distinct fails — so
`validate()` returning true is not equivalent to the section-3
invariants holding. -/
theorem claim_validate_counterexample :
    validate (MAGIC ++ [1] ++ noneTag ++ toBytesLE 2 4
        ++ toBytesLE 5 8 ++ toBytesLE 48 8 ++ toBytesLE 5 8 ++ toBytesLE 52 8
        ++ [9,9,9,9,8,8,8,8]) = .ok true
    ∧ ¬ spec3DistinctKeys (MAGIC ++ [1] ++ noneTag ++ toBytesLE 2 4
        ++ toBytesLE 5 8 ++ toBytesLE 48 8 ++ toBytesLE 5 8 ++ toBytesLE 52 8
        ++ [9,9,9,9,8,8,8,8]) :=
  ⟨by decide, by unfold spec3DistinctKeys; decide⟩

/-- C9 (amended).  `validate()` returns true exactly when the checks the
code actually performs succeed: the index parses (the buffer is not
shorter than `16 + 16N` when `N > 0`), the magic bytes match, the format
version is 0 or 1, the codec tag is known, for a non-empty map the
index-order int64 offset differences are all non-negative and account
for the whole data region, and an empty map's buffer is exactly 16
bytes.  Key distinctness, key ordering and CRC validity are not
inspected, so `validate` is not complete for the section-3 invariants. -/
theorem claim_validate_actual_checks (buf : List Nat) :
    validate buf = .ok true ↔
      ¬ (0 < numEntries buf ∧ buf.length < 16 + 16 * numEntries buf)
      ∧ buf.take 7 = MAGIC
      ∧ (format_version buf = 0 ∨ format_version buf = 1)
      ∧ normalize_encoding (pySlice buf 8 12) ∈ COMPRESSION_TYPES
      ∧ (0 < numEntries buf →
          (¬ (validateLens buf).any (fun l => decide (l < 0))
            ∧ validateTotal buf = (buf.length : Int) - 16 - 16 * numEntries buf))
      ∧ (numEntries buf = 0 → buf.length = 16) :=
  validate_ok_iff buf

/-- C10.  Permutation totality of the Eytzinger layout generator: for
every input list and output buffer of the same length, the in-order heap
walk `eytzinger_sort(inpt, output, 0, 1)` returns `N` and the filled
output buffer is a permutation (rearrangement) of the input. -/
theorem claim_eytzinger_permutation (inpt out : List Nat)
    (h : out.length = inpt.length) :
    (eytzinger_sort 0 inpt out 0 1).1 = inpt.length
    ∧ (eytzinger_sort 0 inpt out 0 1).2.Perm inpt :=
  eytzinger_sort_perm 0 inpt out h

/-- Witness for C10 on the input `[10, 20, 30]`. -/
theorem claim_eytzinger_permutation_witness :
    (eytzinger_sort 0 [10,20,30] [0,0,0] 0 1).1 = 3
    ∧ (eytzinger_sort 0 [10,20,30] [0,0,0] 0 1).2.Perm [10,20,30] :=
  claim_eytzinger_permutation [10,20,30] [0,0,0] (by decide)

end MapBuf

